import Mathlib

/-!
Shallow embedding of `homework6/decision_tree.py` (decision-tree learner).

Python floats that carry data values are modelled as rationals `ℚ` (the data
and thresholds are only compared and linearly combined), while the entropy /
information-gain computations, which use `math.log`, are modelled over `ℝ`.
Python exceptions (`KeyError`, `IndexError`, `TypeError`) are modelled by
`Option`: a `none` result means the Python code raises.
-/

set_option maxHeartbeats 1000000

namespace DecisionTreePy

/-- A cell value of an example row: a float (modelled as a rational),
a string, or Python's `None` (the missing-value marker). -/
inductive Value where
  | num (q : ℚ)
  | str (s : String)
  | nil
deriving DecidableEq, Repr

/-- An example is a Python dict from column names to values, modelled as an
association list in insertion order. -/
abbrev Example := List (String × Value)

/-- Dictionary lookup `e[k]`; `none` means the key is absent
(Python would raise `KeyError`). -/
def Example.get? (e : Example) (k : String) : Option Value :=
  (e.find? (fun p => p.1 == k)).map (fun p => p.2)

/-- The keys of the dict, in insertion order (`for key in examples[0]`). -/
def Example.keys (e : Example) : List String :=
  e.map (fun p => p.1)

/-- The fixed four-category class alphabet hardcoded in the program. -/
inductive Cat where
  | red | lightBlue | mediumBlue | wickedBlue
deriving DecidableEq, Repr

/-- A class-count dictionary `{'red': 0, 'light blue': 0, 'medium blue': 0,
'wicked blue': 0}`. -/
structure Counts where
  red : ℕ
  lightBlue : ℕ
  mediumBlue : ℕ
  wickedBlue : ℕ
deriving DecidableEq, Repr

def Counts.get (c : Counts) : Cat → ℕ
  | .red => c.red
  | .lightBlue => c.lightBlue
  | .mediumBlue => c.mediumBlue
  | .wickedBlue => c.wickedBlue

/-- `counts[label] += 1`. -/
def Counts.bump (c : Counts) : Cat → Counts
  | .red => { c with red := c.red + 1 }
  | .lightBlue => { c with lightBlue := c.lightBlue + 1 }
  | .mediumBlue => { c with mediumBlue := c.mediumBlue + 1 }
  | .wickedBlue => { c with wickedBlue := c.wickedBlue + 1 }

def Counts.sum (c : Counts) : ℕ :=
  c.red + c.lightBlue + c.mediumBlue + c.wickedBlue

/-- Interpreting a cell value as one of the four recognized class labels.
Any other value (an unknown string, a float, `None`) is `none`: indexing the
count dict with it raises `KeyError`. -/
def catOfValue : Value → Option Cat
  | .str "red" => some .red
  | .str "light blue" => some .lightBlue
  | .str "medium blue" => some .mediumBlue
  | .str "wicked blue" => some .wickedBlue
  | _ => none

/-- `example[class_name]` interpreted as a class label; `none` when the key is
absent or the value is not a recognized label (Python raises). -/
def classCat (cls : String) (e : Example) : Option Cat :=
  match e.get? cls with
  | some v => catOfValue v
  | none => none

/-- The smoothing constant `1e-15` of the entropy function. -/
noncomputable def eps : ℝ := 1e-15

/-- `DecisionTree.entropy(dict, total)`:
`total += 1e-15`, then minus the sum over the four fixed categories of
`count/total * log2((count + 1e-15)/total)`. -/
noncomputable def entropy (c : Counts) (total : ℝ) : ℝ :=
  let t : ℝ := total + eps;
  -((c.red / t) * Real.logb 2 ((c.red + eps) / t) +
    (c.lightBlue / t) * Real.logb 2 ((c.lightBlue + eps) / t) +
    (c.mediumBlue / t) * Real.logb 2 ((c.mediumBlue + eps) / t) +
    (c.wickedBlue / t) * Real.logb 2 ((c.wickedBlue + eps) / t))

/-- The learned tree: `DecisionNode` (test attribute, threshold, three
children) or `LeafNode` (predicted class, majority count, total count). -/
inductive TreeNode where
  | leaf (predClass : Cat) (predClassCount : ℕ) (totalCount : ℕ)
  | node (testAttr : String) (threshold : ℚ)
      (childLT childGE childMiss : TreeNode)
deriving DecidableEq

/-- The probability stored in a `LeafNode.__init__`:
`pred_class_count / total_count`. -/
noncomputable def leafProb (predClassCount totalCount : ℕ) : ℝ :=
  (predClassCount : ℝ) / (totalCount : ℝ)

/-- `classify(example)` of a tree node.  A leaf returns its stored pair.  A
decision node reads `example[test_attr_name]`: an absent key raises
(`none`); `None` goes to `child_miss`; a float `< threshold` goes to
`child_lt`, otherwise to `child_ge`; comparing a string with the float
threshold raises `TypeError` in Python 3 (`none`). -/
noncomputable def classify : TreeNode → Example → Option (Cat × ℝ)
  | .leaf c pcc tot, _ => some (c, leafProb pcc tot)
  | .node a t lt ge miss, e =>
    match e.get? a with
    | none => none
    | some .nil => classify miss e
    | some (.num q) => if q < t then classify lt e else classify ge e
    | some (.str _) => none

/-- State of the class-count / majority loop at the top of `learn_tree`
(lines 157-169): the `parent` count dict, `majority`, `pred_class_count`
and `total`. -/
structure Tally where
  counts : Counts
  majority : Cat
  pcc : ℕ
  total : ℕ
deriving DecidableEq, Repr

/-- One pass of the loop: `parent[label] += 1`; `check = pred_class_count`;
`pred_class_count = max(pred_class_count, parent[label])`;
`if check != pred_class_count: majority = label`; `total += 1`. -/
def tallyGo (cls : String) : List Example → Tally → Option Tally
  | [], tl => some tl
  | e :: es, tl =>
    match classCat cls e with
    | none => none
    | some c =>
      let counts := tl.counts.bump c
      let pcc := max tl.pcc (counts.get c)
      tallyGo cls es
        ⟨counts, if pcc ≠ tl.pcc then c else tl.majority, pcc, tl.total + 1⟩

/-- The whole loop, from the initial state
`parent = all-zero, majority = 'red', pred_class_count = 0, total = 0`. -/
def tallyM (cls : String) (examples : List Example) : Option Tally :=
  tallyGo cls examples ⟨⟨0, 0, 0, 0⟩, .red, 0, 0⟩

/-- The best-split tracking state of `learn_tree`'s attribute scan:
`IG`, `IG_thres`, `IG_attr`, `minimum_l`, `minimum_r`. -/
structure ScanSt where
  IG : ℝ
  thres : ℚ
  attr : String
  minL : ℕ
  minR : ℕ

/-- `IG, IG_thres = 0, 0; minimum_r, minimum_l = 0, 0; IG_attr = 'town'`. -/
noncomputable def initScan : ScanSt := ⟨0, 0, "town", 0, 0⟩

/-- The information gain of a candidate split:
`entropy_parent - (p_l/(p_l+p_r)*entropy_l + p_r/(p_l+p_r)*entropy_r)`. -/
noncomputable def gainOf (entP : ℝ) (pl pr : ℕ) (cl cr : Counts) : ℝ :=
  entP - ((pl : ℝ) / ((pl : ℝ) + (pr : ℝ)) * entropy cl (pl : ℝ) +
          (pr : ℝ) / ((pl : ℝ) + (pr : ℝ)) * entropy cr (pr : ℝ))

/-- The partition loop of one threshold candidate (lines 195-204): for each
example with a float value for `key`, compare with the threshold and count
it (and its class) into the left (`<`) or right (`>=`) group.  A missing
dict key, or an unrecognized class label of a counted example, raises. -/
def partitionM (cls key : String) (t : ℚ) : List Example → Option (ℕ × ℕ × Counts × Counts)
  | [] => some (0, 0, ⟨0, 0, 0, 0⟩, ⟨0, 0, 0, 0⟩)
  | e :: es =>
    match e.get? key with
    | none => none
    | some (.num q) =>
      match classCat cls e with
      | none => none
      | some c =>
        (partitionM cls key t es).map (fun st =>
          match st with
          | (pl, pr, cl, cr) =>
            if q ≥ t then (pl, pr + 1, cl, cr.bump c) else (pl + 1, pr, cl.bump c, cr))
    | some _ => partitionM cls key t es

/-- The final splitting loop (lines 225-232): build `examples_l` and
`examples_r` from the examples with a float value for the winning
attribute. -/
def splitListsM (key : String) (t : ℚ) : List Example → Option (List Example × List Example)
  | [] => some ([], [])
  | e :: es =>
    match e.get? key with
    | none => none
    | some (.num q) =>
      (splitListsM key t es).map (fun st =>
        match st with
        | (l, r) => if q ≥ t then (l, e :: r) else (e :: l, r))
    | some _ => splitListsM key t es

/-- The min/max loop (lines 180-185): `bottom = 9999; top = -9999`, then for
every example with a float value `bottom = min(v, bottom); top = max(v, top)`. -/
def bottomTopM (key : String) : List Example → Option (ℚ × ℚ)
  | [] => some (9999, -9999)
  | e :: es =>
    match e.get? key with
    | none => none
    | some (.num q) =>
      (bottomTopM key es).map (fun p => (min q p.1, max q p.2))
    | some _ => bottomTopM key es

open Classical in
/-- One iteration of the 25-candidate threshold loop, at threshold `t`
(lines 191-218): partition, and if both sides are non-empty compute the
gain, `check = IG; IG = max(IG, gain)`, and record the candidate when
`IG != check and (p_l > min_leaf_count and p_r > min_leaf_count)`. -/
noncomputable def stepM (cls : String) (mlc : ℤ) (entP : ℝ) (ex : List Example)
    (key : String) (t : ℚ) (st : ScanSt) : Option ScanSt :=
  match partitionM cls key t ex with
  | none => none
  | some (pl, pr, cl, cr) =>
    if pr ≠ 0 ∧ pl ≠ 0 then
      let ig := max st.IG (gainOf entP pl pr cl cr)
      if ig ≠ st.IG ∧ ((pl : ℤ) > mlc ∧ (pr : ℤ) > mlc) then
        some ⟨ig, t, key, pl, pr⟩
      else
        some ⟨ig, st.thres, st.attr, st.minL, st.minR⟩
    else some st

/-- `for i in range(n): thres += seg; <body at thres>`. -/
noncomputable def innerLoopM (cls : String) (mlc : ℤ) (entP : ℝ) (ex : List Example)
    (key : String) (seg : ℚ) : ℕ → ℚ → ScanSt → Option ScanSt
  | 0, _, st => some st
  | n + 1, thres, st =>
    match stepM cls mlc entP ex key (thres + seg) st with
    | none => none
    | some st' => innerLoopM cls mlc entP ex key seg n (thres + seg) st'

/-- The sequence of thresholds the loop evaluates: starting from `thres`,
each iteration first does `thres += seg` and then uses the new value. -/
def innerTrace (seg : ℚ) : ℕ → ℚ → List ℚ
  | 0, _ => []
  | n + 1, thres => (thres + seg) :: innerTrace seg n (thres + seg)

/-- Python's `type(x) is None` comparison on line 178: it is always `False`
(`None` is a value, never a `type`); modelled literally. -/
def valTypeIsNoneType (_ : Option Value) : Bool := false

/-- `type(examples[0][key]) == float`. -/
def valIsFloat : Option Value → Bool
  | some (.num _) => true
  | _ => false

/-- The attribute filter on line 178:
`(type(examples[0][key]) == float or type(examples[0][key]) is None) and key != self.id_name`. -/
def attrConsidered (e0 : Example) (idn key : String) : Bool :=
  (valIsFloat (e0.get? key) || valTypeIsNoneType (e0.get? key)) && (key != idn)

/-- Processing of one attribute `key` (lines 176-218): skip it unless the
filter passes; otherwise compute `bottom`, `top`, `seg = (top-bottom)/25`,
and run the 25-iteration threshold loop starting from `thres = bottom - seg`. -/
noncomputable def attrStepM (idn cls : String) (mlc : ℤ) (entP : ℝ) (ex : List Example)
    (e0 : Example) (key : String) (st : ScanSt) : Option ScanSt :=
  if attrConsidered e0 idn key then
    match bottomTopM key ex with
    | none => none
    | some (bottom, top) =>
      innerLoopM cls mlc entP ex key ((top - bottom) / 25) 25 (bottom - (top - bottom) / 25) st
  else some st

/-- The scan over `for key in examples[0]`. -/
noncomputable def attrScanM (idn cls : String) (mlc : ℤ) (entP : ℝ) (ex : List Example)
    (e0 : Example) : List String → ScanSt → Option ScanSt
  | [], st => some st
  | k :: ks, st =>
    match attrStepM idn cls mlc entP ex e0 k st with
    | none => none
    | some st' => attrScanM idn cls mlc entP ex e0 ks st'

/-- When the per-threshold partition loop succeeds, the final splitting loop
for the same attribute and threshold succeeds too, and its two lists have
exactly the counted lengths. -/
theorem partition_split_lengths {cls key : String} {t : ℚ} :
    ∀ {ex : List Example} {pl pr : ℕ} {cl cr : Counts} {L R : List Example},
      partitionM cls key t ex = some (pl, pr, cl, cr) →
      splitListsM key t ex = some (L, R) →
      L.length = pl ∧ R.length = pr := by
  intro ex
  induction ex with
  | nil =>
    intro pl pr cl cr L R hp hs
    simp [partitionM] at hp
    simp [splitListsM] at hs
    obtain ⟨h1, h2, _, _⟩ := hp
    obtain ⟨h5, h6⟩ := hs
    subst h1 h2 h5 h6
    simp
  | cons e es ih =>
    intro pl pr cl cr L R hp hs
    unfold partitionM at hp
    unfold splitListsM at hs
    match hv : e.get? key with
    | none => rw [hv] at hp; exact absurd hp (by simp)
    | some (.str s) =>
      rw [hv] at hp hs
      exact ih hp hs
    | some .nil =>
      rw [hv] at hp hs
      exact ih hp hs
    | some (.num q) =>
      rw [hv] at hp hs
      match hc : classCat cls e with
      | none => rw [hc] at hp; exact absurd hp (by simp)
      | some c =>
        rw [hc] at hp
        match hp' : partitionM cls key t es, hs' : splitListsM key t es with
        | none, _ => rw [hp'] at hp; exact absurd hp (by simp)
        | some _, none => rw [hs'] at hs; exact absurd hs (by simp)
        | some (pl', pr', cl', cr'), some (L', R') =>
          rw [hp'] at hp
          rw [hs'] at hs
          have := ih hp' hs'
          by_cases hq : q ≥ t <;>
            simp [hq] at hp hs <;>
            obtain ⟨h1, h2, _, _⟩ := hp <;>
            obtain ⟨h5, h6⟩ := hs <;>
            subst h1 h2 <;>
            simp [← h5, ← h6, this.1, this.2]

/-- Each example lands in at most one of the two split lists. -/
theorem splitListsM_length_le {key : String} {t : ℚ} :
    ∀ {ex : List Example} {L R : List Example},
      splitListsM key t ex = some (L, R) →
      L.length + R.length ≤ ex.length := by
  intro ex
  induction ex with
  | nil =>
    intro L R hs
    simp [splitListsM] at hs
    obtain ⟨h1, h2⟩ := hs
    subst h1 h2
    simp
  | cons e es ih =>
    intro L R hs
    unfold splitListsM at hs
    match hv : e.get? key with
    | none => rw [hv] at hs; exact absurd hs (by simp)
    | some (.str s) =>
      rw [hv] at hs
      exact le_trans (ih hs) (by simp)
    | some .nil =>
      rw [hv] at hs
      exact le_trans (ih hs) (by simp)
    | some (.num q) =>
      rw [hv] at hs
      match hs' : splitListsM key t es with
      | none => rw [hs'] at hs; exact absurd hs (by simp)
      | some (L', R') =>
        rw [hs'] at hs
        have := ih hs'
        by_cases hq : q ≥ t <;> simp [hq] at hs <;>
          obtain ⟨h1, h2⟩ := hs <;> subst h1 h2 <;> simp <;> omega

/-- Invariant of the scan state: either no candidate has been recorded yet
(the `'town'` sentinel), or the recorded (attribute, threshold) pair
partitions the examples with both sides non-empty. -/
def GoodSt (cls : String) (ex : List Example) (st : ScanSt) : Prop :=
  st.attr = "town" ∨
    ∃ pl pr cl cr, partitionM cls st.attr st.thres ex = some (pl, pr, cl, cr) ∧
      1 ≤ pl ∧ 1 ≤ pr

theorem goodSt_init (cls : String) (ex : List Example) : GoodSt cls ex initScan :=
  Or.inl rfl

theorem goodSt_step {cls : String} {mlc : ℤ} {entP : ℝ} {ex : List Example}
    {key : String} {t : ℚ} {st st' : ScanSt}
    (hg : GoodSt cls ex st) (h : stepM cls mlc entP ex key t st = some st') :
    GoodSt cls ex st' := by
  unfold stepM at h
  split at h
  · exact absurd h (by simp)
  case _ pl pr cl cr hp =>
    split at h
    case isTrue hnz =>
      simp only [ne_eq] at h
      split at h
      case isTrue hrec =>
        refine Or.inr ⟨pl, pr, cl, cr, ?_, ?_, ?_⟩
        · have : st'.attr = key ∧ st'.thres = t := by
            cases h; exact ⟨rfl, rfl⟩
          rw [this.1, this.2]; exact hp
        · omega
        · omega
      case isFalse hrec =>
        have : st'.attr = st.attr ∧ st'.thres = st.thres := by
          cases h; exact ⟨rfl, rfl⟩
        unfold GoodSt
        rw [this.1, this.2]
        exact hg
    case isFalse hnz =>
      cases h
      exact hg

theorem goodSt_innerLoop {cls : String} {mlc : ℤ} {entP : ℝ} {ex : List Example}
    {key : String} {seg : ℚ} :
    ∀ {n : ℕ} {t0 : ℚ} {st st' : ScanSt},
      GoodSt cls ex st →
      innerLoopM cls mlc entP ex key seg n t0 st = some st' →
      GoodSt cls ex st' := by
  intro n
  induction n with
  | zero =>
    intro t0 st st' hg h
    simp [innerLoopM] at h
    cases h; exact hg
  | succ n ih =>
    intro t0 st st' hg h
    unfold innerLoopM at h
    match hs : stepM cls mlc entP ex key (t0 + seg) st with
    | none => rw [hs] at h; exact absurd h (by simp)
    | some st1 =>
      rw [hs] at h
      exact ih (goodSt_step hg hs) h

theorem goodSt_attrStep {idn cls : String} {mlc : ℤ} {entP : ℝ} {ex : List Example}
    {e0 : Example} {key : String} {st st' : ScanSt}
    (hg : GoodSt cls ex st) (h : attrStepM idn cls mlc entP ex e0 key st = some st') :
    GoodSt cls ex st' := by
  unfold attrStepM at h
  by_cases hc : attrConsidered e0 idn key
  · rw [if_pos hc] at h
    match hbt : bottomTopM key ex with
    | none => rw [hbt] at h; exact absurd h (by simp)
    | some (bottom, top) =>
      rw [hbt] at h
      exact goodSt_innerLoop hg h
  · rw [if_neg hc] at h
    cases h; exact hg

theorem goodSt_attrScan {idn cls : String} {mlc : ℤ} {entP : ℝ} {ex : List Example}
    {e0 : Example} :
    ∀ {keys : List String} {st st' : ScanSt},
      GoodSt cls ex st →
      attrScanM idn cls mlc entP ex e0 keys st = some st' →
      GoodSt cls ex st' := by
  intro keys
  induction keys with
  | nil =>
    intro st st' hg h
    simp [attrScanM] at h
    cases h; exact hg
  | cons k ks ih =>
    intro st st' hg h
    unfold attrScanM at h
    match hs : attrStepM idn cls mlc entP ex e0 k st with
    | none => rw [hs] at h; exact absurd h (by simp)
    | some st1 =>
      rw [hs] at h
      exact ih (goodSt_attrStep hg hs) h

/-- The two split lists of a successfully scanned (non-sentinel) state are
both strictly shorter than the example list. -/
theorem scan_split_lt {idn cls : String} {mlc : ℤ} {entP : ℝ} {ex : List Example}
    {e0 : Example} {keys : List String} {st : ScanSt} {L R : List Example}
    (hscan : attrScanM idn cls mlc entP ex e0 keys initScan = some st)
    (hattr : st.attr ≠ "town")
    (hsp : splitListsM st.attr st.thres ex = some (L, R)) :
    L.length < ex.length ∧ R.length < ex.length := by
  have hg := goodSt_attrScan (goodSt_init cls ex) hscan
  rcases hg with h | ⟨pl, pr, cl, cr, hp, hpl, hpr⟩
  · exact absurd h hattr
  · have hlen := partition_split_lengths hp hsp
    have hle := splitListsM_length_le hsp
    omega

/-- `DecisionTree.learn_tree(examples)` (lines 143-239).  `none` models a
raised exception (empty example list, unrecognized class label, missing
dict key).  The recursion is well-founded because a recorded split always
has both sides non-empty (`scan_split_lt`). -/
noncomputable def learnTree (idn cls : String) (mlc : ℤ) (examples : List Example) :
    Option TreeNode :=
  match hex : examples with
  | [] => none
  | e0 :: _ =>
    match tallyM cls examples with
    | none => none
    | some tl =>
      match hscan : attrScanM idn cls mlc (entropy tl.counts (tl.total : ℝ)) examples e0
          e0.keys initScan with
      | none => none
      | some st =>
        if hstop : st.attr = "town" ∨ (tl.total : ℤ) ≤ mlc then
          some (.leaf tl.majority tl.pcc tl.total)
        else
          match hsp : splitListsM st.attr st.thres examples with
          | none => none
          | some (exL, exR) =>
            match learnTree idn cls mlc exL, learnTree idn cls mlc exR with
            | some lt, some ge =>
              some (if exR.length > exL.length then
                      .node st.attr st.thres lt ge (.leaf tl.majority tl.pcc tl.total)
                    else
                      .node st.attr st.thres lt ge (.leaf tl.majority tl.pcc tl.total))
            | _, _ => none
termination_by examples.length
decreasing_by
  · exact hex ▸ (scan_split_lt hscan (fun h => hstop (Or.inl h)) hsp).1
  · exact hex ▸ (scan_split_lt hscan (fun h => hstop (Or.inl h)) hsp).2

theorem eps_pos : (0 : ℝ) < eps := by norm_num [eps]

theorem eps_le : eps ≤ 1 / 10 ^ 15 := by norm_num [eps]

/-- `log x ≤ x/4 - 1 + 2 log 2` for positive `x` (shifted standard bound). -/
theorem log_le_quarter (x : ℝ) (hx : 0 < x) :
    Real.log x ≤ x / 4 - 1 + 2 * Real.log 2 := by
  have h := Real.log_le_sub_one_of_pos (show (0:ℝ) < x / 4 by linarith)
  rw [Real.log_div (ne_of_gt hx) (by norm_num)] at h
  have h4 : Real.log 4 = 2 * Real.log 2 := by
    rw [show (4:ℝ) = 2 ^ 2 by norm_num, Real.log_pow]
    push_cast
    ring
  linarith [h, h4]

/-- `1 - x⁻¹ ≤ log x` for positive `x`. -/
theorem one_sub_inv_le_log (x : ℝ) (hx : 0 < x) : 1 - x⁻¹ ≤ Real.log x := by
  have h := Real.log_le_sub_one_of_pos (show (0:ℝ) < x⁻¹ by positivity)
  rw [Real.log_inv] at h
  linarith

/-- The entropy of a set whose examples all have the first class is exactly 0:
the zero counts contribute factor 0, and the majority term is `log2 1 = 0`. -/
theorem entropy_pure_red (n : ℕ) : entropy ⟨n, 0, 0, 0⟩ (n : ℝ) = 0 := by
  have ht : ((n : ℝ) + eps) ≠ 0 :=
    ne_of_gt (add_pos_of_nonneg_of_pos n.cast_nonneg eps_pos)
  simp [entropy, div_self ht]

/-- Same for a set pure in the second class. -/
theorem entropy_pure_lightBlue (n : ℕ) : entropy ⟨0, n, 0, 0⟩ (n : ℝ) = 0 := by
  have ht : ((n : ℝ) + eps) ≠ 0 :=
    ne_of_gt (add_pos_of_nonneg_of_pos n.cast_nonneg eps_pos)
  simp [entropy, div_self ht]

/-- The entropy of a genuinely mixed two-class set is strictly positive. -/
theorem entropy_two_pos (a b : ℕ) (ha : 1 ≤ a) (hb : 1 ≤ b) :
    0 < entropy ⟨a, b, 0, 0⟩ ((a : ℝ) + (b : ℝ)) := by
  have he := eps_pos
  have ha' : (1 : ℝ) ≤ (a : ℝ) := by exact_mod_cast ha
  have hb' : (1 : ℝ) ≤ (b : ℝ) := by exact_mod_cast hb
  have ht : (0 : ℝ) < (a : ℝ) + (b : ℝ) + eps := by linarith
  have h1 : Real.logb 2 (((a : ℝ) + eps) / ((a : ℝ) + (b : ℝ) + eps)) < 0 := by
    apply Real.logb_neg one_lt_two
    · apply div_pos (by linarith) ht
    · rw [div_lt_one ht]; linarith
  have h2 : Real.logb 2 (((b : ℝ) + eps) / ((a : ℝ) + (b : ℝ) + eps)) < 0 := by
    apply Real.logb_neg one_lt_two
    · apply div_pos (by linarith) ht
    · rw [div_lt_one ht]; linarith
  have hA : 0 < (a : ℝ) / ((a : ℝ) + (b : ℝ) + eps) := div_pos (by linarith) ht
  have hB : 0 < (b : ℝ) / ((a : ℝ) + (b : ℝ) + eps) := div_pos (by linarith) ht
  have t1 := mul_neg_of_pos_of_neg hA h1
  have t2 := mul_neg_of_pos_of_neg hB h2
  simp only [entropy, Nat.cast_zero, zero_div, zero_mul, add_zero, zero_add]
  linarith [t1, t2]

/-- Per-term bound used for the entropy upper bound. -/
theorem entropy_term_bound (n : ℕ) (t : ℝ) (ht : 0 < t) (hn : (n : ℝ) + eps ≤ t) :
    ((n : ℝ) / t) * (Real.log t - Real.log ((n : ℝ) + eps)) ≤
      ((n : ℝ) / ((n : ℝ) + eps)) / 4 - (n : ℝ) / t +
        2 * Real.log 2 * ((n : ℝ) / t) := by
  have hne : (0 : ℝ) < (n : ℝ) + eps :=
    add_pos_of_nonneg_of_pos n.cast_nonneg eps_pos
  have hx : (0 : ℝ) < t / ((n : ℝ) + eps) := div_pos ht hne
  have hlog := log_le_quarter _ hx
  rw [Real.log_div (ne_of_gt ht) (ne_of_gt hne)] at hlog
  have hu : (0 : ℝ) ≤ (n : ℝ) / t := div_nonneg n.cast_nonneg (le_of_lt ht)
  have hmul := mul_le_mul_of_nonneg_left hlog hu
  have key : ((n : ℝ) / t) * (t / ((n : ℝ) + eps) / 4) = ((n : ℝ) / ((n : ℝ) + eps)) / 4 := by
    field_simp
  nlinarith [hmul, key]

/-- The entropy of any honest count vector is nonnegative. -/
theorem entropy_nonneg (c : Counts) (total : ℕ) (h : total = c.sum) :
    0 ≤ entropy c (total : ℝ) := by
  have he := eps_pos
  have ht : (0 : ℝ) < (total : ℝ) + eps :=
    add_pos_of_nonneg_of_pos total.cast_nonneg eps_pos
  have bound : ∀ n : ℕ, n ≤ total →
      ((n : ℝ) / ((total : ℝ) + eps)) *
        Real.logb 2 (((n : ℝ) + eps) / ((total : ℝ) + eps)) ≤ 0 := by
    intro n hn
    have hn' : (n : ℝ) ≤ (total : ℝ) := by exact_mod_cast hn
    apply mul_nonpos_of_nonneg_of_nonpos
    · exact div_nonneg n.cast_nonneg (le_of_lt ht)
    · apply Real.logb_nonpos one_lt_two
      · apply div_nonneg (by linarith [(Nat.cast_nonneg n : (0:ℝ) ≤ (n : ℝ))]) (le_of_lt ht)
      · rw [div_le_one ht]; linarith
  have h1 := bound c.red (by simp only [Counts.sum] at h; omega)
  have h2 := bound c.lightBlue (by simp only [Counts.sum] at h; omega)
  have h3 := bound c.mediumBlue (by simp only [Counts.sum] at h; omega)
  have h4 := bound c.wickedBlue (by simp only [Counts.sum] at h; omega)
  simp only [entropy]
  linarith [h1, h2, h3, h4]

/-- The entropy of any honest count vector is at most `2` bits. -/
theorem entropy_le_two (c : Counts) (total : ℕ) (h : total = c.sum) :
    entropy c (total : ℝ) ≤ 2 := by
  have he := eps_pos
  have hL2 := Real.log_two_gt_d9
  have hL2' := Real.log_two_lt_d9
  have hL2pos : (0 : ℝ) < Real.log 2 := by linarith
  set t : ℝ := (total : ℝ) + eps with hts
  have ht : (0 : ℝ) < t := add_pos_of_nonneg_of_pos total.cast_nonneg eps_pos
  -- the four counts and their basic facts
  have hsum : (c.red : ℝ) + c.lightBlue + c.mediumBlue + c.wickedBlue = (total : ℝ) := by
    simp only [Counts.sum] at h; push_cast [h]; ring
  have hcount : ∀ n : ℕ, n ≤ total → (n : ℝ) + eps ≤ t := by
    intro n hn
    have : (n : ℝ) ≤ (total : ℝ) := by exact_mod_cast hn
    rw [hts]; linarith
  have hle : ∀ n : ℕ, (n : ℝ) / ((n : ℝ) + eps) ≤ 1 := by
    intro n
    rw [div_le_one (add_pos_of_nonneg_of_pos n.cast_nonneg eps_pos)]
    linarith [(Nat.cast_nonneg n : (0:ℝ) ≤ (n : ℝ))]
  have hb1 := entropy_term_bound c.red t ht
    (hcount _ (by simp only [Counts.sum] at h; omega))
  have hb2 := entropy_term_bound c.lightBlue t ht
    (hcount _ (by simp only [Counts.sum] at h; omega))
  have hb3 := entropy_term_bound c.mediumBlue t ht
    (hcount _ (by simp only [Counts.sum] at h; omega))
  have hb4 := entropy_term_bound c.wickedBlue t ht
    (hcount _ (by simp only [Counts.sum] at h; omega))
  have hS : ((total : ℝ)) / t ≤ 1 := by
    rw [div_le_one ht, hts]; linarith
  have hSnn : 0 ≤ (total : ℝ) / t := div_nonneg total.cast_nonneg (le_of_lt ht)
  -- sum of the per-category shares is total / t
  have hshares : (c.red : ℝ) / t + (c.lightBlue : ℝ) / t + (c.mediumBlue : ℝ) / t +
      (c.wickedBlue : ℝ) / t = (total : ℝ) / t := by
    rw [div_add_div_same, div_add_div_same, div_add_div_same, hsum]
  -- rewrite entropy through natural logs
  have hlogne : ∀ n : ℕ, ((n : ℝ) + eps) ≠ 0 :=
    fun n => ne_of_gt (add_pos_of_nonneg_of_pos n.cast_nonneg eps_pos)
  simp only [entropy, Real.logb, ← hts]
  rw [Real.log_div (hlogne c.red) (ne_of_gt ht),
      Real.log_div (hlogne c.lightBlue) (ne_of_gt ht),
      Real.log_div (hlogne c.mediumBlue) (ne_of_gt ht),
      Real.log_div (hlogne c.wickedBlue) (ne_of_gt ht),
      ← mul_div_assoc, ← mul_div_assoc, ← mul_div_assoc, ← mul_div_assoc,
      div_add_div_same, div_add_div_same, div_add_div_same, ← neg_div,
      div_le_iff hL2pos]
  nlinarith [hb1, hb2, hb3, hb4, hle c.red, hle c.lightBlue, hle c.mediumBlue,
    hle c.wickedBlue, hshares, hS, hSnn, mul_nonneg (sub_nonneg.mpr hS)
      (show (0:ℝ) ≤ 2 * Real.log 2 - 1 by linarith)]

/-- Numeric upper bound on the entropy of a 3-vs-1 split. -/
theorem entropy31_le : entropy ⟨3, 1, 0, 0⟩ (4 : ℝ) ≤ 0.87 := by
  have he := eps_pos
  have he2 := eps_le
  have hL2 := Real.log_two_gt_d9
  have hL2' := Real.log_two_lt_d9
  have hL2pos : (0 : ℝ) < Real.log 2 := by linarith
  have ht : (0 : ℝ) < 4 + eps := by linarith
  have h3 : (0 : ℝ) < 3 + eps := by linarith
  have h1 : (0 : ℝ) < 1 + eps := by linarith
  -- bound the two log terms
  have hB3 : Real.log (4 + eps) - Real.log (3 + eps) ≤ 1 / 3 := by
    have h := Real.log_le_sub_one_of_pos (show (0:ℝ) < (4 + eps) / (3 + eps) by positivity)
    rw [Real.log_div (ne_of_gt ht) (ne_of_gt h3)] at h
    have : (4 + eps) / (3 + eps) - 1 ≤ 1 / 3 := by
      rw [div_sub_one (ne_of_gt h3)]
      rw [div_le_div_iff h3 (by norm_num)]
      linarith
    linarith
  have hB3nn : 0 ≤ Real.log (4 + eps) - Real.log (3 + eps) := by
    have := Real.log_le_log h3 (show (3:ℝ) + eps ≤ 4 + eps by linarith)
    linarith
  have hB1 : Real.log (4 + eps) - Real.log (1 + eps) ≤ eps / 4 + 2 * Real.log 2 := by
    have h := log_le_quarter ((4 + eps) / (1 + eps))
      (by positivity)
    rw [Real.log_div (ne_of_gt ht) (ne_of_gt h1)] at h
    have hq : (4 + eps) / (1 + eps) / 4 ≤ (4 + eps) / 4 := by
      apply div_le_div_of_nonneg_right _ (by norm_num)
      rw [div_le_iff h1]
      nlinarith
    linarith
  have hB1nn : 0 ≤ Real.log (4 + eps) - Real.log (1 + eps) := by
    have := Real.log_le_log h1 (show (1:ℝ) + eps ≤ 4 + eps by linarith)
    linarith
  have hc3 : (3 : ℝ) / (4 + eps) ≤ 3 / 4 := by
    apply div_le_div_of_nonneg_left (by norm_num) (by norm_num) (by linarith)
  have hc3nn : (0 : ℝ) ≤ 3 / (4 + eps) := by positivity
  have hc1 : (1 : ℝ) / (4 + eps) ≤ 1 / 4 := by
    apply div_le_div_of_nonneg_left (by norm_num) (by norm_num) (by linarith)
  have hc1nn : (0 : ℝ) ≤ 1 / (4 + eps) := by positivity
  have hm3 : (3 / (4 + eps)) * (Real.log (4 + eps) - Real.log (3 + eps)) ≤
      (3 / 4) * (1 / 3) := mul_le_mul hc3 hB3 hB3nn (by norm_num)
  have hm1 : (1 / (4 + eps)) * (Real.log (4 + eps) - Real.log (1 + eps)) ≤
      (1 / 4) * (eps / 4 + 2 * Real.log 2) :=
    mul_le_mul hc1 hB1 hB1nn (by norm_num)
  simp only [entropy, Real.logb, Nat.cast_ofNat, Nat.cast_one, Nat.cast_zero,
    zero_div, zero_mul, add_zero]
  rw [Real.log_div (ne_of_gt h3) (ne_of_gt ht),
      Real.log_div (ne_of_gt h1) (ne_of_gt ht),
      ← mul_div_assoc, ← mul_div_assoc, div_add_div_same, ← neg_div,
      div_le_iff hL2pos]
  nlinarith [hm3, hm1]

/-- Numeric lower bound on the entropy of a balanced 3-vs-3 split. -/
theorem entropy33_ge : 0.99 ≤ entropy ⟨3, 3, 0, 0⟩ (6 : ℝ) := by
  have he := eps_pos
  have he2 := eps_le
  have hL2 := Real.log_two_gt_d9
  have hL2' := Real.log_two_lt_d9
  have hL2pos : (0 : ℝ) < Real.log 2 := by linarith
  have ht : (0 : ℝ) < 6 + eps := by linarith
  have h3 : (0 : ℝ) < 3 + eps := by linarith
  have hz : (0 : ℝ) < (6 + eps) / (6 + 2 * eps) := by positivity
  -- log((6+eps)/(3+eps)) = log 2 + log((6+eps)/(6+2 eps)) ≥ log 2 - eps/6
  have hsplit : (6 + eps) / (3 + eps) = 2 * ((6 + eps) / (6 + 2 * eps)) := by
    have h3' : (3 : ℝ) + eps ≠ 0 := ne_of_gt h3
    have h62' : (6 : ℝ) + 2 * eps ≠ 0 := ne_of_gt (by linarith)
    field_simp
    ring
  have hlow : 1 - ((6 + eps) / (6 + 2 * eps))⁻¹ ≤ Real.log ((6 + eps) / (6 + 2 * eps)) :=
    one_sub_inv_le_log _ hz
  have hinv : ((6 + eps) / (6 + 2 * eps))⁻¹ = (6 + 2 * eps) / (6 + eps) := by
    rw [inv_div]
  have hlow2 : -(eps / 6) ≤ Real.log ((6 + eps) / (6 + 2 * eps)) := by
    rw [hinv] at hlow
    have : 1 - (6 + 2 * eps) / (6 + eps) = -(eps / (6 + eps)) := by
      field_simp
      ring
    rw [this] at hlow
    have : eps / (6 + eps) ≤ eps / 6 :=
      div_le_div_of_nonneg_left (le_of_lt he) (by norm_num) (by linarith)
    linarith
  have hB : Real.log 2 - eps / 6 ≤ Real.log (6 + eps) - Real.log (3 + eps) := by
    have h2z : Real.log ((6 + eps) / (3 + eps)) =
        Real.log 2 + Real.log ((6 + eps) / (6 + 2 * eps)) := by
      rw [hsplit, Real.log_mul (by norm_num) (ne_of_gt hz)]
    rw [Real.log_div (ne_of_gt ht) (ne_of_gt h3)] at h2z
    linarith
  have hBnn : (0 : ℝ) ≤ Real.log 2 - eps / 6 := by linarith
  have hc : (0.4995 : ℝ) ≤ 3 / (6 + eps) := by
    rw [le_div_iff ht]
    linarith
  have hcnn : (0 : ℝ) ≤ 3 / (6 + eps) := by positivity
  have hm : (0.4995 : ℝ) * (Real.log 2 - eps / 6) ≤
      (3 / (6 + eps)) * (Real.log (6 + eps) - Real.log (3 + eps)) :=
    mul_le_mul hc hB hBnn hcnn
  simp only [entropy, Real.logb, Nat.cast_ofNat, Nat.cast_zero,
    zero_div, zero_mul, add_zero]
  rw [Real.log_div (ne_of_gt h3) (ne_of_gt ht),
      ← mul_div_assoc, div_add_div_same, ← neg_div,
      le_div_iff hL2pos]
  nlinarith [hm]

theorem ScanSt.eta (st : ScanSt) :
    (⟨st.IG, st.thres, st.attr, st.minL, st.minR⟩ : ScanSt) = st := rfl

/-- A threshold whose partition has an empty side is skipped: the state is
untouched. -/
theorem stepM_skip {cls : String} {mlc : ℤ} {entP : ℝ} {ex : List Example}
    {key : String} {t : ℚ} {st : ScanSt} {pl pr : ℕ} {cl cr : Counts}
    (hp : partitionM cls key t ex = some (pl, pr, cl, cr))
    (hz : pl = 0 ∨ pr = 0) :
    stepM cls mlc entP ex key t st = some st := by
  simp only [stepM, hp]
  rw [if_neg (by tauto)]

/-- A candidate whose gain does not strictly exceed the running maximum is
never recorded, and leaves the whole state unchanged. -/
theorem stepM_stale {cls : String} {mlc : ℤ} {entP : ℝ} {ex : List Example}
    {key : String} {t : ℚ} {st : ScanSt} {pl pr : ℕ} {cl cr : Counts}
    (hp : partitionM cls key t ex = some (pl, pr, cl, cr))
    (hpl : pl ≠ 0) (hpr : pr ≠ 0)
    (hg : gainOf entP pl pr cl cr ≤ st.IG) :
    stepM cls mlc entP ex key t st = some st := by
  simp only [stepM, hp]
  rw [if_pos ⟨hpr, hpl⟩]
  have hmax : max st.IG (gainOf entP pl pr cl cr) = st.IG := max_eq_left hg
  simp only [hmax]
  rw [if_neg (by simp), ScanSt.eta]

/-- A candidate that strictly improves the gain and has both partition sizes
above the min-leaf bound is recorded. -/
theorem stepM_record {cls : String} {mlc : ℤ} {entP : ℝ} {ex : List Example}
    {key : String} {t : ℚ} {st : ScanSt} {pl pr : ℕ} {cl cr : Counts}
    (hp : partitionM cls key t ex = some (pl, pr, cl, cr))
    (hpl : pl ≠ 0) (hpr : pr ≠ 0)
    (hg : st.IG < gainOf entP pl pr cl cr)
    (hl : mlc < (pl : ℤ)) (hr : mlc < (pr : ℤ)) :
    stepM cls mlc entP ex key t st =
      some ⟨gainOf entP pl pr cl cr, t, key, pl, pr⟩ := by
  simp only [stepM, hp]
  rw [if_pos ⟨hpr, hpl⟩]
  have hmax : max st.IG (gainOf entP pl pr cl cr) = gainOf entP pl pr cl cr :=
    max_eq_right (le_of_lt hg)
  simp only [hmax]
  rw [if_pos ⟨ne_of_gt hg, hl, hr⟩]

/-- A candidate that strictly improves the gain but fails the min-leaf-count
bound still raises the running maximum `IG`, without being recorded. -/
theorem stepM_contaminate {cls : String} {mlc : ℤ} {entP : ℝ} {ex : List Example}
    {key : String} {t : ℚ} {st : ScanSt} {pl pr : ℕ} {cl cr : Counts}
    (hp : partitionM cls key t ex = some (pl, pr, cl, cr))
    (hpl : pl ≠ 0) (hpr : pr ≠ 0)
    (hg : st.IG < gainOf entP pl pr cl cr)
    (hsz : ¬(mlc < (pl : ℤ) ∧ mlc < (pr : ℤ))) :
    stepM cls mlc entP ex key t st =
      some ⟨gainOf entP pl pr cl cr, st.thres, st.attr, st.minL, st.minR⟩ := by
  simp only [stepM, hp]
  rw [if_pos ⟨hpr, hpl⟩]
  have hmax : max st.IG (gainOf entP pl pr cl cr) = gainOf entP pl pr cl cr :=
    max_eq_right (le_of_lt hg)
  simp only [hmax]
  rw [if_neg (by tauto)]

/-- Closed form of the thresholds the loop runs through: starting value
`t0`, the `i`-th evaluated threshold is `t0 + seg*(i+1)`. -/
theorem innerTrace_closed (seg : ℚ) :
    ∀ (n : ℕ) (t0 : ℚ),
      innerTrace seg n t0 = (List.range n).map (fun i : ℕ => t0 + seg * ((i : ℚ) + 1)) := by
  intro n
  induction n with
  | zero => intro t0; simp [innerTrace]
  | succ n ih =>
    intro t0
    have hu : innerTrace seg (n + 1) t0 = (t0 + seg) :: innerTrace seg n (t0 + seg) := rfl
    rw [hu, ih, List.range_succ_eq_map]
    simp only [List.map_cons, List.map_map, List.cons.injEq]
    constructor
    · ring
    · apply List.map_congr_left
      intro i _
      simp only [Function.comp_apply]
      push_cast
      ring

theorem innerLoopM_zero {cls : String} {mlc : ℤ} {entP : ℝ} {ex : List Example}
    {key : String} {seg : ℚ} {t0 : ℚ} {st : ScanSt} :
    innerLoopM cls mlc entP ex key seg 0 t0 st = some st := rfl

theorem innerLoopM_step {cls : String} {mlc : ℤ} {entP : ℝ} {ex : List Example}
    {key : String} {seg : ℚ} {n : ℕ} {t0 : ℚ} {st st1 : ScanSt}
    (h : stepM cls mlc entP ex key (t0 + seg) st = some st1) :
    innerLoopM cls mlc entP ex key seg (n + 1) t0 st =
      innerLoopM cls mlc entP ex key seg n (t0 + seg) st1 := by
  have hu : innerLoopM cls mlc entP ex key seg (n + 1) t0 st =
      match stepM cls mlc entP ex key (t0 + seg) st with
      | none => none
      | some st' => innerLoopM cls mlc entP ex key seg n (t0 + seg) st' := rfl
  rw [hu, h]

/-- If every threshold the loop will evaluate leaves the state unchanged,
the whole loop leaves the state unchanged. -/
theorem innerLoopM_const {cls : String} {mlc : ℤ} {entP : ℝ} {ex : List Example}
    {key : String} {seg : ℚ} :
    ∀ {n : ℕ} {t0 : ℚ} {st : ScanSt},
      (∀ t ∈ innerTrace seg n t0, stepM cls mlc entP ex key t st = some st) →
      innerLoopM cls mlc entP ex key seg n t0 st = some st := by
  intro n
  induction n with
  | zero => intro t0 st _; rfl
  | succ n ih =>
    intro t0 st h
    rw [innerLoopM_step (h (t0 + seg) (by rw [innerTrace]; simp))]
    exact ih (fun t ht => h t (by rw [innerTrace]; simp [ht]))

theorem attrScanM_nil {idn cls : String} {mlc : ℤ} {entP : ℝ} {ex : List Example}
    {e0 : Example} {st : ScanSt} :
    attrScanM idn cls mlc entP ex e0 [] st = some st := rfl

theorem attrScanM_cons {idn cls : String} {mlc : ℤ} {entP : ℝ} {ex : List Example}
    {e0 : Example} {k : String} {ks : List String} {st st1 : ScanSt}
    (h : attrStepM idn cls mlc entP ex e0 k st = some st1) :
    attrScanM idn cls mlc entP ex e0 (k :: ks) st =
      attrScanM idn cls mlc entP ex e0 ks st1 := by
  have hu : attrScanM idn cls mlc entP ex e0 (k :: ks) st =
      match attrStepM idn cls mlc entP ex e0 k st with
      | none => none
      | some st' => attrScanM idn cls mlc entP ex e0 ks st' := rfl
  rw [hu, h]

/-- An attribute rejected by the line-178 filter leaves the state unchanged. -/
theorem attrStepM_skip {idn cls : String} {mlc : ℤ} {entP : ℝ} {ex : List Example}
    {e0 : Example} {key : String} {st : ScanSt}
    (h : attrConsidered e0 idn key = false) :
    attrStepM idn cls mlc entP ex e0 key st = some st := by
  unfold attrStepM
  rw [h]
  simp

/-- An accepted attribute runs the 25-iteration threshold loop from
`bottom - seg`. -/
theorem attrStepM_run {idn cls : String} {mlc : ℤ} {entP : ℝ} {ex : List Example}
    {e0 : Example} {key : String} {st : ScanSt} {bottom top : ℚ}
    (h : attrConsidered e0 idn key = true)
    (hbt : bottomTopM key ex = some (bottom, top)) :
    attrStepM idn cls mlc entP ex e0 key st =
      innerLoopM cls mlc entP ex key ((top - bottom) / 25) 25
        (bottom - (top - bottom) / 25) st := by
  unfold attrStepM
  rw [h, hbt]
  simp

/-- `learn_tree([])` raises `IndexError` at `examples[0]`. -/
theorem learnTree_nil (idn cls : String) (mlc : ℤ) :
    learnTree idn cls mlc [] = none := by
  unfold learnTree
  rfl

/-- A failing class-count loop propagates: `learn_tree` raises. -/
theorem learnTree_tally_none {idn cls : String} {mlc : ℤ} {e0 : Example}
    {es : List Example} (htal : tallyM cls (e0 :: es) = none) :
    learnTree idn cls mlc (e0 :: es) = none := by
  rw [learnTree]
  split
  · rfl
  · rename_i tl h
    rw [htal] at h
    exact absurd h (by simp)

/-- The leaf case of `learn_tree`: no recorded split, or too few examples. -/
theorem learnTree_leaf_eq {idn cls : String} {mlc : ℤ} {e0 : Example}
    {es : List Example} {tl : Tally} {st : ScanSt}
    (htal : tallyM cls (e0 :: es) = some tl)
    (hscan : attrScanM idn cls mlc (entropy tl.counts (tl.total : ℝ)) (e0 :: es) e0
      e0.keys initScan = some st)
    (hstop : st.attr = "town" ∨ (tl.total : ℤ) ≤ mlc) :
    learnTree idn cls mlc (e0 :: es) = some (.leaf tl.majority tl.pcc tl.total) := by
  rw [learnTree]
  split
  · rename_i h; rw [htal] at h; exact absurd h (by simp)
  · rename_i tl' h
    rw [htal] at h
    injection h with h
    subst h
    split
    · rename_i h2; rw [hscan] at h2; exact absurd h2 (by simp)
    · rename_i st' h2
      rw [hscan] at h2
      injection h2 with h2
      subst h2
      rw [dif_pos hstop]

/-- The split case of `learn_tree`: a recorded split, successful list split,
and two successful recursive calls produce a `DecisionNode` whose missing
child is the leaf of the undivided parent statistics. -/
theorem learnTree_node_eq {idn cls : String} {mlc : ℤ} {e0 : Example}
    {es : List Example} {tl : Tally} {st : ScanSt} {exL exR : List Example}
    {lt ge : TreeNode}
    (htal : tallyM cls (e0 :: es) = some tl)
    (hscan : attrScanM idn cls mlc (entropy tl.counts (tl.total : ℝ)) (e0 :: es) e0
      e0.keys initScan = some st)
    (hstop : ¬(st.attr = "town" ∨ (tl.total : ℤ) ≤ mlc))
    (hsp : splitListsM st.attr st.thres (e0 :: es) = some (exL, exR))
    (hL : learnTree idn cls mlc exL = some lt)
    (hR : learnTree idn cls mlc exR = some ge) :
    learnTree idn cls mlc (e0 :: es) =
      some (.node st.attr st.thres lt ge (.leaf tl.majority tl.pcc tl.total)) := by
  rw [learnTree]
  split
  · rename_i h; rw [htal] at h; exact absurd h (by simp)
  · rename_i tl' h
    rw [htal] at h
    injection h with h
    subst h
    split
    · rename_i h2; rw [hscan] at h2; exact absurd h2 (by simp)
    · rename_i st' h2
      rw [hscan] at h2
      injection h2 with h2
      subst h2
      rw [dif_neg hstop]
      split
      · rename_i h3; rw [hsp] at h3; exact absurd h3 (by simp)
      · rename_i exL' exR' h3
        rw [hsp] at h3
        injection h3 with h3
        injection h3 with h3a h3b
        subst h3a
        subst h3b
        rw [hL, hR]
        simp only [ite_self]

/-- A split that is pure on both sides gains the whole parent entropy. -/
theorem gainOf_pure (entP : ℝ) (a b : ℕ) :
    gainOf entP a b ⟨a, 0, 0, 0⟩ ⟨0, b, 0, 0⟩ = entP := by
  simp [gainOf, entropy_pure_red, entropy_pure_lightBlue]

theorem str_beq_false {a b : String} (h : a ≠ b) : (a == b) = false :=
  beq_eq_false_iff_ne.mpr h

/-! ### A concrete two-example training set

One identifier column `"name"`, one numeric attribute (its name `A` is a
parameter, so the same computation serves an ordinary name and the reserved
name `"town"`), one class column `"class"` with two distinct labels. -/

def exA1 (A : String) : Example :=
  [("name", .str "a"), (A, .num 0), ("class", .str "red")]

def exA2 (A : String) : Example :=
  [("name", .str "b"), (A, .num 1), ("class", .str "light blue")]

def EA (A : String) : List Example := [exA1 A, exA2 A]

section EAEval

variable {A : String}

theorem exA1_get_A (h : A ≠ "name") : (exA1 A).get? A = some (.num 0) := by
  simp [exA1, Example.get?, List.find?, str_beq_false (Ne.symm h)]

theorem exA2_get_A (h : A ≠ "name") : (exA2 A).get? A = some (.num 1) := by
  simp [exA2, Example.get?, List.find?, str_beq_false (Ne.symm h)]

theorem exA1_get_name : (exA1 A).get? "name" = some (.str "a") := by
  simp [exA1, Example.get?, List.find?]

theorem exA1_get_class (h : A ≠ "class") : (exA1 A).get? "class" = some (.str "red") := by
  simp [exA1, Example.get?, List.find?, str_beq_false h]

theorem exA2_get_class (h : A ≠ "class") :
    (exA2 A).get? "class" = some (.str "light blue") := by
  simp [exA2, Example.get?, List.find?, str_beq_false h]

theorem tally_EA (h2 : A ≠ "class") :
    tallyM "class" (EA A) = some ⟨⟨1, 1, 0, 0⟩, .red, 1, 2⟩ := by
  simp [tallyM, tallyGo, EA, classCat, exA1_get_class h2, exA2_get_class h2,
    catOfValue, Counts.bump, Counts.get]

theorem tally_exA1 (h2 : A ≠ "class") :
    tallyM "class" [exA1 A] = some ⟨⟨1, 0, 0, 0⟩, .red, 1, 1⟩ := by
  simp [tallyM, tallyGo, classCat, exA1_get_class h2, catOfValue,
    Counts.bump, Counts.get]

theorem tally_exA2 (h2 : A ≠ "class") :
    tallyM "class" [exA2 A] = some ⟨⟨0, 1, 0, 0⟩, .lightBlue, 1, 1⟩ := by
  simp [tallyM, tallyGo, classCat, exA2_get_class h2, catOfValue,
    Counts.bump, Counts.get]

theorem partition_EA_low (h1 : A ≠ "name") (h2 : A ≠ "class") (t : ℚ)
    (ht : (0 : ℚ) ≥ t) :
    partitionM "class" A t (EA A) = some (0, 2, ⟨0, 0, 0, 0⟩, ⟨1, 1, 0, 0⟩) := by
  have ht1 : (1 : ℚ) ≥ t := le_trans ht (by norm_num)
  simp [partitionM, EA, exA1_get_A h1, exA2_get_A h1, classCat,
    exA1_get_class h2, exA2_get_class h2, catOfValue, Counts.bump, ht, ht1]

theorem partition_EA_mid (h1 : A ≠ "name") (h2 : A ≠ "class") (t : ℚ)
    (h0 : ¬((0 : ℚ) ≥ t)) (hm : (1 : ℚ) ≥ t) :
    partitionM "class" A t (EA A) = some (1, 1, ⟨1, 0, 0, 0⟩, ⟨0, 1, 0, 0⟩) := by
  simp [partitionM, EA, exA1_get_A h1, exA2_get_A h1, classCat,
    exA1_get_class h2, exA2_get_class h2, catOfValue, Counts.bump, h0, hm]

theorem partition_exA1 (h1 : A ≠ "name") (h2 : A ≠ "class") (t : ℚ)
    (ht : (0 : ℚ) ≥ t) :
    partitionM "class" A t [exA1 A] = some (0, 1, ⟨0, 0, 0, 0⟩, ⟨1, 0, 0, 0⟩) := by
  simp [partitionM, exA1_get_A h1, classCat, exA1_get_class h2, catOfValue,
    Counts.bump, ht]

theorem partition_exA2 (h1 : A ≠ "name") (h2 : A ≠ "class") (t : ℚ)
    (ht : (1 : ℚ) ≥ t) :
    partitionM "class" A t [exA2 A] = some (0, 1, ⟨0, 0, 0, 0⟩, ⟨0, 1, 0, 0⟩) := by
  simp [partitionM, exA2_get_A h1, classCat, exA2_get_class h2, catOfValue,
    Counts.bump, ht]

theorem bottomTop_EA (h1 : A ≠ "name") : bottomTopM A (EA A) = some (0, 1) := by
  simp [bottomTopM, EA, exA1_get_A h1, exA2_get_A h1]
  try norm_num [min_def, max_def]

theorem bottomTop_exA1 (h1 : A ≠ "name") : bottomTopM A [exA1 A] = some (0, 0) := by
  simp [bottomTopM, exA1_get_A h1]
  try norm_num [min_def, max_def]

theorem bottomTop_exA2 (h1 : A ≠ "name") : bottomTopM A [exA2 A] = some (1, 1) := by
  simp [bottomTopM, exA2_get_A h1]
  try norm_num [min_def, max_def]

theorem splitLists_EA (h1 : A ≠ "name") :
    splitListsM A (1/25) (EA A) = some ([exA1 A], [exA2 A]) := by
  simp only [splitListsM, EA, exA1_get_A h1, exA2_get_A h1]
  norm_num

theorem considered_name_self : attrConsidered (exA1 A) "name" "name" = false := by
  simp [attrConsidered]

theorem considered_A (h1 : A ≠ "name") : attrConsidered (exA1 A) "name" A = true := by
  simp [attrConsidered, valIsFloat, exA1_get_A h1, bne, str_beq_false h1]

theorem considered_class (h2 : A ≠ "class") :
    attrConsidered (exA1 A) "name" "class" = false := by
  simp [attrConsidered, valIsFloat, valTypeIsNoneType, exA1_get_class h2]

/-- The full attribute scan over the two-example set: the second threshold
(`bottom + seg*1 = 1/25`) is the first recording candidate, and all later
candidates tie and are ignored. -/
theorem scan_EA (h1 : A ≠ "name") (h2 : A ≠ "class") {entP : ℝ} (hpos : 0 < entP) :
    attrScanM "name" "class" 0 entP (EA A) (exA1 A) ["name", A, "class"] initScan =
      some ⟨entP, 1/25, A, 1, 1⟩ := by
  rw [attrScanM_cons (attrStepM_skip considered_name_self)]
  have hstep : attrStepM "name" "class" 0 entP (EA A) (exA1 A) A initScan =
      some ⟨entP, 1/25, A, 1, 1⟩ := by
    rw [attrStepM_run (considered_A h1) (bottomTop_EA h1)]
    rw [show ((1 : ℚ) - 0) / 25 = 1/25 by norm_num,
        show (0 : ℚ) - 1 / 25 = -(1/25) by norm_num]
    rw [innerLoopM_step (stepM_skip (partition_EA_low h1 h2 _ (by norm_num))
      (Or.inl rfl))]
    rw [innerLoopM_step (stepM_record (partition_EA_mid h1 h2 _ (by norm_num)
      (by norm_num)) (by norm_num) (by norm_num)
      (by rw [gainOf_pure]; exact hpos) (by norm_num) (by norm_num))]
    rw [gainOf_pure, show (-(1/25) + 1/25 + 1/25 : ℚ) = 1/25 by norm_num]
    apply innerLoopM_const
    intro t ht
    rw [innerTrace_closed] at ht
    simp only [List.mem_map, List.mem_range] at ht
    obtain ⟨i, hi, rfl⟩ := ht
    have hi' : (i : ℚ) ≤ 22 := by
      have : i ≤ 22 := by omega
      exact_mod_cast this
    apply stepM_stale (partition_EA_mid h1 h2 _ (by push_neg; positivity)
      (by linarith)) (by norm_num) (by norm_num)
    rw [gainOf_pure]
  rw [attrScanM_cons hstep]
  rw [attrScanM_cons (attrStepM_skip (considered_class h2))]
  exact attrScanM_nil

theorem scan_exA1 (h1 : A ≠ "name") (h2 : A ≠ "class") {entP : ℝ} :
    attrScanM "name" "class" 0 entP [exA1 A] (exA1 A) ["name", A, "class"] initScan =
      some initScan := by
  rw [attrScanM_cons (attrStepM_skip considered_name_self)]
  have hstep : attrStepM "name" "class" 0 entP [exA1 A] (exA1 A) A initScan =
      some initScan := by
    rw [attrStepM_run (considered_A h1) (bottomTop_exA1 h1)]
    apply innerLoopM_const
    intro t ht
    rw [innerTrace_closed] at ht
    simp only [List.mem_map, List.mem_range] at ht
    obtain ⟨i, _, rfl⟩ := ht
    refine stepM_skip (partition_exA1 h1 h2 _ (by rw [show (0 : ℚ) - (0 - 0) / 25 + (0 - 0) / 25 * ((i : ℚ) + 1) = 0 by ring])) (Or.inl rfl)
  rw [attrScanM_cons hstep]
  rw [attrScanM_cons (attrStepM_skip (considered_class h2))]
  exact attrScanM_nil

theorem scan_exA2 (h1 : A ≠ "name") (h2 : A ≠ "class") {entP : ℝ} :
    attrScanM "name" "class" 0 entP [exA2 A] (exA2 A) ["name", A, "class"] initScan =
      some initScan := by
  have hname : attrConsidered (exA2 A) "name" "name" = false := by
    simp [attrConsidered]
  have hclass : attrConsidered (exA2 A) "name" "class" = false := by
    simp [attrConsidered, valIsFloat, valTypeIsNoneType, exA2_get_class h2]
  have hconsA : attrConsidered (exA2 A) "name" A = true := by
    simp [attrConsidered, valIsFloat, exA2_get_A h1, bne, str_beq_false h1]
  rw [attrScanM_cons (attrStepM_skip hname)]
  have hstep : attrStepM "name" "class" 0 entP [exA2 A] (exA2 A) A initScan =
      some initScan := by
    rw [attrStepM_run hconsA (bottomTop_exA2 h1)]
    apply innerLoopM_const
    intro t ht
    rw [innerTrace_closed] at ht
    simp only [List.mem_map, List.mem_range] at ht
    obtain ⟨i, _, rfl⟩ := ht
    refine stepM_skip (partition_exA2 h1 h2 _ ?_) (Or.inl rfl)
    rw [show (1 : ℚ) - (1 - 1) / 25 + (1 - 1) / 25 * ((i : ℚ) + 1) = 1 by ring]
  rw [attrScanM_cons hstep]
  rw [attrScanM_cons (attrStepM_skip hclass)]
  exact attrScanM_nil

theorem learnTree_exA1 (h1 : A ≠ "name") (h2 : A ≠ "class") :
    learnTree "name" "class" 0 [exA1 A] = some (.leaf .red 1 1) :=
  learnTree_leaf_eq (tally_exA1 h2) (scan_exA1 h1 h2) (Or.inl rfl)

theorem learnTree_exA2 (h1 : A ≠ "name") (h2 : A ≠ "class") :
    learnTree "name" "class" 0 [exA2 A] = some (.leaf .lightBlue 1 1) :=
  learnTree_leaf_eq (tally_exA2 h2) (scan_exA2 h1 h2) (Or.inl rfl)

theorem entropy11_pos : 0 < entropy ⟨1, 1, 0, 0⟩ (((2 : ℕ) : ℝ)) := by
  have h := entropy_two_pos 1 1 (le_refl 1) (le_refl 1)
  have : ((1 : ℕ) : ℝ) + ((1 : ℕ) : ℝ) = ((2 : ℕ) : ℝ) := by norm_num
  rwa [this] at h

/-- Learning on the two-example set with an ordinary attribute name: a
`DecisionNode` at threshold `1/25`, and the missing child is the parent's
majority leaf. -/
theorem learnTree_EA (h1 : A ≠ "name") (h2 : A ≠ "class") (h3 : A ≠ "town") :
    learnTree "name" "class" 0 (EA A) =
      some (.node A (1/25) (.leaf .red 1 1) (.leaf .lightBlue 1 1)
        (.leaf .red 1 2)) := by
  apply learnTree_node_eq (tally_EA h2) (scan_EA h1 h2 entropy11_pos)
  · intro h
    rcases h with h | h
    · exact h3 h
    · norm_num at h
  · exact splitLists_EA h1
  · exact learnTree_exA1 h1 h2
  · exact learnTree_exA2 h1 h2

/-- Learning on the same set when the only splittable attribute is named
`"town"`: the recorded split collides with the sentinel and the learner
returns a leaf. -/
theorem learnTree_EA_town :
    learnTree "name" "class" 0 (EA "town") = some (.leaf .red 1 2) :=
  learnTree_leaf_eq (tally_EA (by decide)) (scan_EA (by decide) (by decide)
    entropy11_pos) (Or.inl rfl)

end EAEval

/-- Inversion principle: everything a successful `learn_tree` run reveals. -/
theorem learnTree_some_inv {idn cls : String} {mlc : ℤ} {ex : List Example}
    {tr : TreeNode} (h : learnTree idn cls mlc ex = some tr) :
    ∃ e0 es tl st, ex = e0 :: es ∧ tallyM cls ex = some tl ∧
      attrScanM idn cls mlc (entropy tl.counts (tl.total : ℝ)) ex e0 e0.keys
        initScan = some st ∧
      (((st.attr = "town" ∨ (tl.total : ℤ) ≤ mlc) ∧
        tr = .leaf tl.majority tl.pcc tl.total) ∨
       (¬(st.attr = "town" ∨ (tl.total : ℤ) ≤ mlc) ∧
        ∃ exL exR lt ge, splitListsM st.attr st.thres ex = some (exL, exR) ∧
          learnTree idn cls mlc exL = some lt ∧
          learnTree idn cls mlc exR = some ge ∧
          tr = .node st.attr st.thres lt ge
            (.leaf tl.majority tl.pcc tl.total))) := by
  match ex with
  | [] => rw [learnTree_nil] at h; exact absurd h (by simp)
  | e0 :: es =>
    rw [learnTree] at h
    split at h
    · exact absurd h (by simp)
    · rename_i tl htal
      split at h
      · exact absurd h (by simp)
      · rename_i st hscan
        refine ⟨e0, es, tl, st, rfl, htal, hscan, ?_⟩
        split at h
        · rename_i hstop
          injection h with h
          exact Or.inl ⟨hstop, h.symm⟩
        · rename_i hstop
          refine Or.inr ⟨hstop, ?_⟩
          split at h
          · exact absurd h (by simp)
          · rename_i exL exR hsp
            split at h
            · rename_i lt ge hL hR
              rw [ite_self] at h
              injection h with h
              exact ⟨exL, exR, lt, ge, hsp, hL, hR, h.symm⟩
            · exact absurd h (by simp)

/-- No decision node in a learned tree can test an attribute named `"town"`:
that name is the scan's "no split found" sentinel. -/
def NoTown : TreeNode → Prop
  | .leaf _ _ _ => True
  | .node a _ lt ge miss => a ≠ "town" ∧ NoTown lt ∧ NoTown ge ∧ NoTown miss

theorem learnTree_noTown_aux (idn cls : String) (mlc : ℤ) :
    ∀ (n : ℕ) (ex : List Example), ex.length ≤ n →
      ∀ tr, learnTree idn cls mlc ex = some tr → NoTown tr := by
  intro n
  induction n with
  | zero =>
    intro ex hlen tr h
    match ex, hlen with
    | [], _ => rw [learnTree_nil] at h; exact absurd h (by simp)
  | succ n ih =>
    intro ex hlen tr h
    obtain ⟨e0, es, tl, st, hex, htal, hscan, hrest⟩ := learnTree_some_inv h
    rcases hrest with ⟨_, rfl⟩ | ⟨hstop, exL, exR, lt, ge, hsp, hL, hR, rfl⟩
    · trivial
    · have hlt := scan_split_lt (hex ▸ hscan) (fun hc => hstop (Or.inl hc)) (hex ▸ hsp)
      refine ⟨fun hc => hstop (Or.inl hc), ?_, ?_, trivial⟩
      · refine ih exL ?_ lt hL
        rw [hex] at hlen
        simp only [List.length_cons] at hlt hlen
        omega
      · refine ih exR ?_ ge hR
        rw [hex] at hlen
        simp only [List.length_cons] at hlt hlen
        omega

theorem learnTree_noTown {idn cls : String} {mlc : ℤ} {ex : List Example}
    {tr : TreeNode} (h : learnTree idn cls mlc ex = some tr) : NoTown tr :=
  learnTree_noTown_aux idn cls mlc ex.length ex (le_refl _) tr h

theorem counts_get_le_sum (c : Counts) (cat : Cat) : c.get cat ≤ c.sum := by
  cases cat <;> simp [Counts.get, Counts.sum] <;> omega

theorem counts_bump_sum (c : Counts) (cat : Cat) : (c.bump cat).sum = c.sum + 1 := by
  cases cat <;> simp [Counts.bump, Counts.sum] <;> omega

theorem counts_bump_get (c : Counts) (cat : Cat) :
    (c.bump cat).get cat = c.get cat + 1 := by
  cases cat <;> simp [Counts.bump, Counts.get]

/-- Invariants of the class-count loop: the total counts the examples, the
majority count never exceeds the total, and is at least 1 once an example
has been seen. -/
theorem tallyGo_inv (cls : String) :
    ∀ (ex : List Example) (tl tl' : Tally), tallyGo cls ex tl = some tl' →
      tl'.total = tl.total + ex.length ∧ tl.pcc ≤ tl'.pcc ∧
      (1 ≤ ex.length → 1 ≤ tl'.pcc) ∧
      (tl.counts.sum = tl.total ∧ tl.pcc ≤ tl.total →
        tl'.counts.sum = tl'.total ∧ tl'.pcc ≤ tl'.total) := by
  intro ex
  induction ex with
  | nil =>
    intro tl tl' h
    simp [tallyGo] at h
    subst h
    simp
  | cons e es ih =>
    intro tl tl' h
    unfold tallyGo at h
    match hc : classCat cls e with
    | none => rw [hc] at h; exact absurd h (by simp)
    | some c =>
      rw [hc] at h
      simp only at h
      obtain ⟨h1, h2, h3, h4⟩ := ih _ _ h
      simp only [Tally.total, Tally.pcc, Tally.counts] at h1 h2 h4
      refine ⟨by simp [h1]; omega, ?_, ?_, ?_⟩
      · exact le_trans (le_max_left _ _) h2
      · intro _
        calc 1 ≤ max tl.pcc (tl.counts.bump c |>.get c) := by
              rw [counts_bump_get]; omega
          _ ≤ tl'.pcc := h2
      · intro ⟨hs, hp⟩
        apply h4
        constructor
        · rw [counts_bump_sum, hs]
        · have := counts_get_le_sum (tl.counts.bump c) c
          rw [counts_bump_sum, hs] at this
          simp only [max_le_iff]
          omega

/-- The probability stored by a well-formed leaf lies in `(0, 1]`. -/
theorem leafProb_bounds {pcc tot : ℕ} (h1 : 0 < pcc) (h2 : pcc ≤ tot) :
    0 < leafProb pcc tot ∧ leafProb pcc tot ≤ 1 := by
  have htot : (0 : ℝ) < (tot : ℝ) := by
    have : 0 < tot := lt_of_lt_of_le h1 h2
    exact_mod_cast this
  unfold leafProb
  constructor
  · apply div_pos _ htot
    exact_mod_cast h1
  · rw [div_le_one htot]
    exact_mod_cast h2

/-- Every leaf of the tree carries counts `0 < pcc ≤ total` and a stored
probability in `(0, 1]`. -/
def LeafOK : TreeNode → Prop
  | .leaf _ pcc tot => 0 < pcc ∧ pcc ≤ tot ∧ 0 < leafProb pcc tot ∧ leafProb pcc tot ≤ 1
  | .node _ _ lt ge miss => LeafOK lt ∧ LeafOK ge ∧ LeafOK miss

theorem tallyM_stats {cls : String} {e0 : Example} {es : List Example} {tl : Tally}
    (htal : tallyM cls (e0 :: es) = some tl) :
    0 < tl.pcc ∧ tl.pcc ≤ tl.total ∧ tl.total = es.length + 1 := by
  obtain ⟨h1, _, h3, h4⟩ := tallyGo_inv cls (e0 :: es) _ _ htal
  have := h4 (by simp [Counts.sum])
  have := h3 (by simp)
  simp at h1
  omega

theorem learnTree_leafOK_aux (idn cls : String) (mlc : ℤ) :
    ∀ (n : ℕ) (ex : List Example), ex.length ≤ n →
      ∀ tr, learnTree idn cls mlc ex = some tr → LeafOK tr := by
  intro n
  induction n with
  | zero =>
    intro ex hlen tr h
    match ex, hlen with
    | [], _ => rw [learnTree_nil] at h; exact absurd h (by simp)
  | succ n ih =>
    intro ex hlen tr h
    obtain ⟨e0, es, tl, st, hex, htal, hscan, hrest⟩ := learnTree_some_inv h
    have hstats := tallyM_stats (hex ▸ htal)
    have hleaf : LeafOK (.leaf tl.majority tl.pcc tl.total) := by
      obtain ⟨hb1, hb2⟩ := leafProb_bounds hstats.1 hstats.2.1
      exact ⟨hstats.1, hstats.2.1, hb1, hb2⟩
    rcases hrest with ⟨_, rfl⟩ | ⟨hstop, exL, exR, lt, ge, hsp, hL, hR, rfl⟩
    · exact hleaf
    · have hlt := scan_split_lt (hex ▸ hscan) (fun hc => hstop (Or.inl hc)) (hex ▸ hsp)
      refine ⟨?_, ?_, hleaf⟩
      · refine ih exL ?_ lt hL
        rw [hex] at hlen
        simp only [List.length_cons] at hlt hlen
        omega
      · refine ih exR ?_ ge hR
        rw [hex] at hlen
        simp only [List.length_cons] at hlt hlen
        omega

theorem learnTree_leafOK {idn cls : String} {mlc : ℤ} {ex : List Example}
    {tr : TreeNode} (h : learnTree idn cls mlc ex = some tr) : LeafOK tr :=
  learnTree_leafOK_aux idn cls mlc ex.length ex (le_refl _) tr h

/-- Every decision node of a learned tree stores, as its missing-value
child, the leaf of the *undivided* example set it was built from, and its
`lt` / `ge` children are learned from the two split lists. -/
def MissOK (idn cls : String) (mlc : ℤ) : List Example → TreeNode → Prop
  | _, .leaf _ _ _ => True
  | ex, .node a t lt ge miss =>
      (∃ tl, tallyM cls ex = some tl ∧
        miss = .leaf tl.majority tl.pcc tl.total) ∧
      (∃ exL exR, splitListsM a t ex = some (exL, exR) ∧
        MissOK idn cls mlc exL lt ∧ MissOK idn cls mlc exR ge)

theorem learnTree_missOK_aux (idn cls : String) (mlc : ℤ) :
    ∀ (n : ℕ) (ex : List Example), ex.length ≤ n →
      ∀ tr, learnTree idn cls mlc ex = some tr → MissOK idn cls mlc ex tr := by
  intro n
  induction n with
  | zero =>
    intro ex hlen tr h
    match ex, hlen with
    | [], _ => rw [learnTree_nil] at h; exact absurd h (by simp)
  | succ n ih =>
    intro ex hlen tr h
    obtain ⟨e0, es, tl, st, hex, htal, hscan, hrest⟩ := learnTree_some_inv h
    rcases hrest with ⟨_, rfl⟩ | ⟨hstop, exL, exR, lt, ge, hsp, hL, hR, rfl⟩
    · trivial
    · have hlt := scan_split_lt (hex ▸ hscan) (fun hc => hstop (Or.inl hc)) (hex ▸ hsp)
      refine ⟨⟨tl, htal, rfl⟩, exL, exR, hsp, ?_, ?_⟩
      · refine ih exL ?_ lt hL
        rw [hex] at hlen
        simp only [List.length_cons] at hlt hlen
        omega
      · refine ih exR ?_ ge hR
        rw [hex] at hlen
        simp only [List.length_cons] at hlt hlen
        omega

theorem learnTree_missOK {idn cls : String} {mlc : ℤ} {ex : List Example}
    {tr : TreeNode} (h : learnTree idn cls mlc ex = some tr) :
    MissOK idn cls mlc ex tr :=
  learnTree_missOK_aux idn cls mlc ex.length ex (le_refl _) tr h

theorem classify_leaf (c : Cat) (pcc tot : ℕ) (e : Example) :
    classify (.leaf c pcc tot) e = some (c, leafProb pcc tot) := rfl

theorem classify_node_unfold (a : String) (t : ℚ) (lt ge miss : TreeNode)
    (e : Example) :
    classify (.node a t lt ge miss) e =
      match e.get? a with
      | none => none
      | some .nil => classify miss e
      | some (.num q) => if q < t then classify lt e else classify ge e
      | some (.str _) => none := rfl

/-- A missing (`None`) test value routes to the missing-value child. -/
theorem classify_miss {a : String} {t : ℚ} {lt ge miss : TreeNode} {e : Example}
    (h : e.get? a = some .nil) :
    classify (.node a t lt ge miss) e = classify miss e := by
  rw [classify_node_unfold, h]

/-- A numeric test value strictly below the threshold routes left. -/
theorem classify_lt {a : String} {t : ℚ} {lt ge miss : TreeNode} {e : Example}
    {q : ℚ} (h : e.get? a = some (.num q)) (hq : q < t) :
    classify (.node a t lt ge miss) e = classify lt e := by
  rw [classify_node_unfold, h]
  simp [hq]

/-- A numeric test value at or above the threshold routes right. -/
theorem classify_ge {a : String} {t : ℚ} {lt ge miss : TreeNode} {e : Example}
    {q : ℚ} (h : e.get? a = some (.num q)) (hq : ¬ q < t) :
    classify (.node a t lt ge miss) e = classify ge e := by
  rw [classify_node_unfold, h]
  simp [hq]

/-- A string test value makes `test_val < threshold` raise `TypeError`. -/
theorem classify_str {a : String} {t : ℚ} {lt ge miss : TreeNode} {e : Example}
    {s : String} (h : e.get? a = some (.str s)) :
    classify (.node a t lt ge miss) e = none := by
  rw [classify_node_unfold, h]

/-- An example with an unrecognizable class label makes the class-count loop
raise, whatever the running state. -/
theorem tallyGo_none (cls : String) :
    ∀ (ex : List Example), (∃ e ∈ ex, classCat cls e = none) →
      ∀ tl, tallyGo cls ex tl = none := by
  intro ex
  induction ex with
  | nil => intro h; simp at h
  | cons e es ih =>
    intro h tl
    obtain ⟨e', he', hbad⟩ := h
    unfold tallyGo
    match hc : classCat cls e with
    | none => rfl
    | some c =>
      simp only []
      rcases List.mem_cons.mp he' with rfl | hmem
      · rw [hc] at hbad; exact absurd hbad (by simp)
      · exact ih ⟨e', hmem, hbad⟩ _

/-- `learn_tree` on a non-empty list containing a bad class label raises. -/
theorem learnTree_bad_label {idn cls : String} {mlc : ℤ} {e0 : Example}
    {es : List Example} (h : ∃ e ∈ e0 :: es, classCat cls e = none) :
    learnTree idn cls mlc (e0 :: es) = none :=
  learnTree_tally_none (tallyGo_none cls (e0 :: es) h _)

/-- The threshold loop is exactly a fold of the per-threshold step over the
trace of thresholds. -/
theorem innerLoopM_eq_fold {cls : String} {mlc : ℤ} {entP : ℝ} {ex : List Example}
    {key : String} {seg : ℚ} :
    ∀ (n : ℕ) (t0 : ℚ) (st : ScanSt),
      innerLoopM cls mlc entP ex key seg n t0 st =
        (innerTrace seg n t0).foldlM
          (fun s t => stepM cls mlc entP ex key t s) st := by
  intro n
  induction n with
  | zero => intro t0 st; rfl
  | succ n ih =>
    intro t0 st
    have hu : innerLoopM cls mlc entP ex key seg (n + 1) t0 st =
        match stepM cls mlc entP ex key (t0 + seg) st with
        | none => none
        | some st' => innerLoopM cls mlc entP ex key seg n (t0 + seg) st' := rfl
    have ht : innerTrace seg (n + 1) t0 = (t0 + seg) :: innerTrace seg n (t0 + seg) := rfl
    rw [hu, ht, List.foldlM_cons]
    match stepM cls mlc entP ex key (t0 + seg) st with
    | none => rfl
    | some st' => exact ih (t0 + seg) st'

theorem valIsFloat_iff (v : Option Value) :
    valIsFloat v = true ↔ ∃ q, v = some (.num q) := by
  match v with
  | none => simp [valIsFloat]
  | some (.num q) => simp [valIsFloat]
  | some (.str s) => simp [valIsFloat]
  | some .nil => simp [valIsFloat]

/-- What the line-178 filter actually tests: the attribute is not the id
attribute, and the *first* example's value for it is a float.  (The
`type(...) is None` disjunct is always false.) -/
theorem attrConsidered_iff (e0 : Example) (idn key : String) :
    attrConsidered e0 idn key = true ↔
      key ≠ idn ∧ ∃ q, e0.get? key = some (.num q) := by
  rw [attrConsidered]
  simp only [valTypeIsNoneType, Bool.or_false, Bool.and_eq_true, bne_iff_ne]
  rw [valIsFloat_iff]
  tauto

/-- Boolean test `value is a float and value < t` of an example. -/
def numLT (key : String) (t : ℚ) (e : Example) : Bool :=
  match e.get? key with
  | some (.num q) => !(decide (q ≥ t))
  | _ => false

/-- Boolean test `value is a float and value >= t` of an example. -/
def numGE (key : String) (t : ℚ) (e : Example) : Bool :=
  match e.get? key with
  | some (.num q) => decide (q ≥ t)
  | _ => false

/-- The two split lists are exactly the float-valued examples below /
at-or-above the threshold, in order. -/
theorem splitListsM_eq_filters {key : String} {t : ℚ} :
    ∀ {ex L R : List Example}, splitListsM key t ex = some (L, R) →
      L = ex.filter (numLT key t) ∧ R = ex.filter (numGE key t) := by
  intro ex
  induction ex with
  | nil =>
    intro L R h
    simp [splitListsM] at h
    obtain ⟨h1, h2⟩ := h
    subst h1 h2
    simp
  | cons e es ih =>
    intro L R h
    unfold splitListsM at h
    match hv : e.get? key with
    | none => rw [hv] at h; exact absurd h (by simp)
    | some (.str s) =>
      rw [hv] at h
      obtain ⟨hL, hR⟩ := ih h
      constructor <;> simp [List.filter, numLT, numGE, hv, hL, hR]
    | some .nil =>
      rw [hv] at h
      obtain ⟨hL, hR⟩ := ih h
      constructor <;> simp [List.filter, numLT, numGE, hv, hL, hR]
    | some (.num q) =>
      rw [hv] at h
      match hs : splitListsM key t es with
      | none => rw [hs] at h; exact absurd h (by simp)
      | some (L', R') =>
        rw [hs] at h
        obtain ⟨hL, hR⟩ := ih hs
        by_cases hq : q ≥ t <;> simp [hq] at h <;> obtain ⟨h1, h2⟩ := h <;>
          subst h1 <;> subst h2 <;>
          constructor <;> simp [List.filter, numLT, numGE, hv, hq, hL, hR]

/-! ### A six-example training set exhibiting the best-split tracking bug

Three red and three light-blue examples and three numeric attributes.
`a1` yields a valid, recordable split of positive gain `gC < H(parent)`.
`a2` is defined on only three examples and yields a *pure* split of gain
`H(parent)` whose left side has just one example: it fails the
min-leaf-count test (`min_leaf_count = 1`), is not recorded, but still
raises the running maximum `IG` to `H(parent)`.  `a3` then yields a pure
split of gain `H(parent)` with both sides of size 2 — a valid candidate of
maximal gain — but it no longer strictly exceeds `IG`, so it is never
recorded and the node splits on `a1`. -/

def r1 : Example :=
  [("name", .str "r1"), ("a1", .num 0), ("a2", .num 0), ("a3", .num 0),
   ("class", .str "red")]
def r2 : Example :=
  [("name", .str "r2"), ("a1", .num 0), ("a2", .nil), ("a3", .num 0),
   ("class", .str "red")]
def r3 : Example :=
  [("name", .str "r3"), ("a1", .num 0), ("a2", .nil), ("a3", .nil),
   ("class", .str "red")]
def b1 : Example :=
  [("name", .str "b1"), ("a1", .num 0), ("a2", .num 10), ("a3", .num 10),
   ("class", .str "light blue")]
def b2 : Example :=
  [("name", .str "b2"), ("a1", .num 10), ("a2", .num 10), ("a3", .num 10),
   ("class", .str "light blue")]
def b3 : Example :=
  [("name", .str "b3"), ("a1", .num 10), ("a2", .nil), ("a3", .nil),
   ("class", .str "light blue")]
def E6 : List Example := [r1, r2, r3, b1, b2, b3]

/-- Parent entropy of the six-example set. -/
noncomputable def entP6 : ℝ := entropy ⟨3, 3, 0, 0⟩ ((6 : ℕ) : ℝ)

/-- The gain of the recorded `a1` split. -/
noncomputable def gC : ℝ := gainOf entP6 4 2 ⟨3, 1, 0, 0⟩ ⟨0, 2, 0, 0⟩

theorem entP6_ge : (0.99 : ℝ) ≤ entP6 := by
  unfold entP6
  rw [show ((6 : ℕ) : ℝ) = (6 : ℝ) by norm_num]
  exact entropy33_ge

theorem entropyL_le : entropy ⟨3, 1, 0, 0⟩ ((4 : ℕ) : ℝ) ≤ 0.87 := by
  have h := entropy31_le
  rwa [show ((4 : ℕ) : ℝ) = (4 : ℝ) by norm_num]

theorem entropyL_pos : 0 < entropy ⟨3, 1, 0, 0⟩ ((4 : ℕ) : ℝ) := by
  have h := entropy_two_pos 3 1 (by norm_num) (by norm_num)
  rwa [show ((3 : ℕ) : ℝ) + ((1 : ℕ) : ℝ) = ((4 : ℕ) : ℝ) by norm_num] at h

theorem gC_eq : gC = entP6 - (4 : ℝ) / 6 * entropy ⟨3, 1, 0, 0⟩ ((4 : ℕ) : ℝ) := by
  unfold gC gainOf
  rw [show entropy ⟨0, 2, 0, 0⟩ (((2 : ℕ) : ℝ)) = 0 from entropy_pure_lightBlue 2]
  push_cast
  ring

theorem gC_pos : 0 < gC := by
  rw [gC_eq]
  nlinarith [entP6_ge, entropyL_le]

theorem gC_lt : gC < entP6 := by
  rw [gC_eq]
  have h := entropyL_pos
  set X := entropy ⟨3, 1, 0, 0⟩ ((4 : ℕ) : ℝ) with hX
  linarith

theorem tally_E6 : tallyM "class" E6 = some ⟨⟨3, 3, 0, 0⟩, .red, 3, 6⟩ := by decide

theorem bt_a1 : bottomTopM "a1" E6 = some (0, 10) := by decide
theorem bt_a2 : bottomTopM "a2" E6 = some (0, 10) := by decide
theorem bt_a3 : bottomTopM "a3" E6 = some (0, 10) := by decide

theorem part_a1_low (t : ℚ) (h0 : (0 : ℚ) ≥ t) :
    partitionM "class" "a1" t E6 = some (0, 6, ⟨0, 0, 0, 0⟩, ⟨3, 3, 0, 0⟩) := by
  have h10 : (10 : ℚ) ≥ t := le_trans h0 (by norm_num)
  simp [partitionM, E6, r1, r2, r3, b1, b2, b3, Example.get?, List.find?,
    classCat, catOfValue, Counts.bump, h0, h10]

theorem part_a1_mid (t : ℚ) (h0 : ¬((0 : ℚ) ≥ t)) (h10 : (10 : ℚ) ≥ t) :
    partitionM "class" "a1" t E6 = some (4, 2, ⟨3, 1, 0, 0⟩, ⟨0, 2, 0, 0⟩) := by
  simp [partitionM, E6, r1, r2, r3, b1, b2, b3, Example.get?, List.find?,
    classCat, catOfValue, Counts.bump, h0, h10]

theorem part_a2_low (t : ℚ) (h0 : (0 : ℚ) ≥ t) :
    partitionM "class" "a2" t E6 = some (0, 3, ⟨0, 0, 0, 0⟩, ⟨1, 2, 0, 0⟩) := by
  have h10 : (10 : ℚ) ≥ t := le_trans h0 (by norm_num)
  simp [partitionM, E6, r1, r2, r3, b1, b2, b3, Example.get?, List.find?,
    classCat, catOfValue, Counts.bump, h0, h10]

theorem part_a2_mid (t : ℚ) (h0 : ¬((0 : ℚ) ≥ t)) (h10 : (10 : ℚ) ≥ t) :
    partitionM "class" "a2" t E6 = some (1, 2, ⟨1, 0, 0, 0⟩, ⟨0, 2, 0, 0⟩) := by
  simp [partitionM, E6, r1, r2, r3, b1, b2, b3, Example.get?, List.find?,
    classCat, catOfValue, Counts.bump, h0, h10]

theorem part_a3_low (t : ℚ) (h0 : (0 : ℚ) ≥ t) :
    partitionM "class" "a3" t E6 = some (0, 4, ⟨0, 0, 0, 0⟩, ⟨2, 2, 0, 0⟩) := by
  have h10 : (10 : ℚ) ≥ t := le_trans h0 (by norm_num)
  simp [partitionM, E6, r1, r2, r3, b1, b2, b3, Example.get?, List.find?,
    classCat, catOfValue, Counts.bump, h0, h10]

theorem part_a3_mid (t : ℚ) (h0 : ¬((0 : ℚ) ≥ t)) (h10 : (10 : ℚ) ≥ t) :
    partitionM "class" "a3" t E6 = some (2, 2, ⟨2, 0, 0, 0⟩, ⟨0, 2, 0, 0⟩) := by
  simp [partitionM, E6, r1, r2, r3, b1, b2, b3, Example.get?, List.find?,
    classCat, catOfValue, Counts.bump, h0, h10]

theorem considered_E6_name : attrConsidered r1 "name" "name" = false := by decide
theorem considered_E6_a1 : attrConsidered r1 "name" "a1" = true := by decide
theorem considered_E6_a2 : attrConsidered r1 "name" "a2" = true := by decide
theorem considered_E6_a3 : attrConsidered r1 "name" "a3" = true := by decide
theorem considered_E6_class : attrConsidered r1 "name" "class" = false := by decide

/-- After scanning `a1`: the `(a1, 2/5)` candidate is recorded with gain
`gC`. -/
theorem stepA1 :
    attrStepM "name" "class" 1 entP6 E6 r1 "a1" initScan =
      some ⟨gC, 2/5, "a1", 4, 2⟩ := by
  rw [attrStepM_run considered_E6_a1 bt_a1]
  rw [show ((10 : ℚ) - 0) / 25 = 2/5 by norm_num,
      show (0 : ℚ) - 2/5 = -(2/5) by norm_num]
  rw [innerLoopM_step (stepM_skip (part_a1_low _ (by norm_num)) (Or.inl rfl))]
  rw [innerLoopM_step (stepM_record (part_a1_mid _ (by norm_num) (by norm_num))
    (by norm_num) (by norm_num) (by exact gC_pos) (by norm_num) (by norm_num))]
  rw [show (-(2/5) + 2/5 + 2/5 : ℚ) = 2/5 by norm_num]
  apply innerLoopM_const
  intro t ht
  rw [innerTrace_closed] at ht
  simp only [List.mem_map, List.mem_range] at ht
  obtain ⟨i, hi, rfl⟩ := ht
  have hi' : (i : ℚ) ≤ 22 := by
    have : i ≤ 22 := by omega
    exact_mod_cast this
  apply stepM_stale (part_a1_mid _ (by push_neg; positivity) (by linarith))
    (by norm_num) (by norm_num)
  exact le_refl _

/-- Scanning `a2` from the recorded state: the pure `(a2, 2/5)` candidate
strictly improves the gain but fails the min-leaf-count test; it is not
recorded, yet `IG` is raised from `gC` to the parent entropy. -/
theorem stepA2 :
    attrStepM "name" "class" 1 entP6 E6 r1 "a2" ⟨gC, 2/5, "a1", 4, 2⟩ =
      some ⟨entP6, 2/5, "a1", 4, 2⟩ := by
  rw [attrStepM_run considered_E6_a2 bt_a2]
  rw [show ((10 : ℚ) - 0) / 25 = 2/5 by norm_num,
      show (0 : ℚ) - 2/5 = -(2/5) by norm_num]
  rw [innerLoopM_step (stepM_skip (part_a2_low _ (by norm_num)) (Or.inl rfl))]
  rw [innerLoopM_step (stepM_contaminate (part_a2_mid _ (by norm_num) (by norm_num))
    (by norm_num) (by norm_num) (by rw [gainOf_pure]; exact gC_lt)
    (by intro hc; norm_num at hc))]
  rw [gainOf_pure, show (-(2/5) + 2/5 + 2/5 : ℚ) = 2/5 by norm_num]
  apply innerLoopM_const
  intro t ht
  rw [innerTrace_closed] at ht
  simp only [List.mem_map, List.mem_range] at ht
  obtain ⟨i, hi, rfl⟩ := ht
  have hi' : (i : ℚ) ≤ 22 := by
    have : i ≤ 22 := by omega
    exact_mod_cast this
  apply stepM_stale (part_a2_mid _ (by push_neg; positivity) (by linarith))
    (by norm_num) (by norm_num)
  rw [gainOf_pure]

/-- Scanning `a3`: a valid pure split of maximal gain on both thresholds of
size 2 — but its gain only ties the contaminated `IG`, so nothing is
recorded. -/
theorem stepA3 :
    attrStepM "name" "class" 1 entP6 E6 r1 "a3" ⟨entP6, 2/5, "a1", 4, 2⟩ =
      some ⟨entP6, 2/5, "a1", 4, 2⟩ := by
  rw [attrStepM_run considered_E6_a3 bt_a3]
  rw [show ((10 : ℚ) - 0) / 25 = 2/5 by norm_num,
      show (0 : ℚ) - 2/5 = -(2/5) by norm_num]
  rw [innerLoopM_step (stepM_skip (part_a3_low _ (by norm_num)) (Or.inl rfl))]
  apply innerLoopM_const
  intro t ht
  rw [innerTrace_closed] at ht
  simp only [List.mem_map, List.mem_range] at ht
  obtain ⟨i, hi, rfl⟩ := ht
  have hi' : (i : ℚ) ≤ 23 := by
    have : i ≤ 23 := by omega
    exact_mod_cast this
  apply stepM_stale (part_a3_mid _ (by push_neg; positivity) (by linarith))
    (by norm_num) (by norm_num)
  rw [gainOf_pure]

/-- The full scan over the six-example set ends with the `a1` split
recorded and `IG` contaminated to the parent entropy. -/
theorem scan_E6 :
    attrScanM "name" "class" 1 entP6 E6 r1 ["name", "a1", "a2", "a3", "class"]
      initScan = some ⟨entP6, 2/5, "a1", 4, 2⟩ := by
  rw [attrScanM_cons (attrStepM_skip considered_E6_name)]
  rw [attrScanM_cons stepA1]
  rw [attrScanM_cons stepA2]
  rw [attrScanM_cons stepA3]
  rw [attrScanM_cons (attrStepM_skip considered_E6_class)]
  exact attrScanM_nil

theorem split_E6 :
    splitListsM "a1" (2/5) E6 = some ([r1, r2, r3, b1], [b2, b3]) := by
  have c0 : ¬((0 : ℚ) ≥ 2/5) := by norm_num
  have c10 : (10 : ℚ) ≥ 2/5 := by norm_num
  simp [splitListsM, E6, r1, r2, r3, b1, b2, b3, Example.get?, List.find?, c0, c10]

/-! ### The two recursive calls of the six-example run -/

def EL : List Example := [r1, r2, r3, b1]
def ER : List Example := [b2, b3]

/-- Parent entropy of the left split list. -/
noncomputable def entPL : ℝ := entropy ⟨3, 1, 0, 0⟩ ((4 : ℕ) : ℝ)

theorem tally_EL : tallyM "class" EL = some ⟨⟨3, 1, 0, 0⟩, .red, 3, 4⟩ := by decide
theorem tally_ER : tallyM "class" ER = some ⟨⟨0, 2, 0, 0⟩, .lightBlue, 2, 2⟩ := by decide

theorem btL_a1 : bottomTopM "a1" EL = some (0, 0) := by decide
theorem btL_a2 : bottomTopM "a2" EL = some (0, 10) := by decide
theorem btL_a3 : bottomTopM "a3" EL = some (0, 10) := by decide
theorem btR_a1 : bottomTopM "a1" ER = some (10, 10) := by decide
theorem btR_a2 : bottomTopM "a2" ER = some (10, 10) := by decide
theorem btR_a3 : bottomTopM "a3" ER = some (10, 10) := by decide

theorem part_EL_a1 (t : ℚ) (h0 : (0 : ℚ) ≥ t) :
    partitionM "class" "a1" t EL = some (0, 4, ⟨0, 0, 0, 0⟩, ⟨3, 1, 0, 0⟩) := by
  simp [partitionM, EL, r1, r2, r3, b1, Example.get?, List.find?,
    classCat, catOfValue, Counts.bump, h0]

theorem part_EL_a2_low (t : ℚ) (h0 : (0 : ℚ) ≥ t) :
    partitionM "class" "a2" t EL = some (0, 2, ⟨0, 0, 0, 0⟩, ⟨1, 1, 0, 0⟩) := by
  have h10 : (10 : ℚ) ≥ t := le_trans h0 (by norm_num)
  simp [partitionM, EL, r1, r2, r3, b1, Example.get?, List.find?,
    classCat, catOfValue, Counts.bump, h0, h10]

theorem part_EL_a2_mid (t : ℚ) (h0 : ¬((0 : ℚ) ≥ t)) (h10 : (10 : ℚ) ≥ t) :
    partitionM "class" "a2" t EL = some (1, 1, ⟨1, 0, 0, 0⟩, ⟨0, 1, 0, 0⟩) := by
  simp [partitionM, EL, r1, r2, r3, b1, Example.get?, List.find?,
    classCat, catOfValue, Counts.bump, h0, h10]

theorem part_EL_a3_low (t : ℚ) (h0 : (0 : ℚ) ≥ t) :
    partitionM "class" "a3" t EL = some (0, 3, ⟨0, 0, 0, 0⟩, ⟨2, 1, 0, 0⟩) := by
  have h10 : (10 : ℚ) ≥ t := le_trans h0 (by norm_num)
  simp [partitionM, EL, r1, r2, r3, b1, Example.get?, List.find?,
    classCat, catOfValue, Counts.bump, h0, h10]

theorem part_EL_a3_mid (t : ℚ) (h0 : ¬((0 : ℚ) ≥ t)) (h10 : (10 : ℚ) ≥ t) :
    partitionM "class" "a3" t EL = some (2, 1, ⟨2, 0, 0, 0⟩, ⟨0, 1, 0, 0⟩) := by
  simp [partitionM, EL, r1, r2, r3, b1, Example.get?, List.find?,
    classCat, catOfValue, Counts.bump, h0, h10]

theorem part_ER_a1 (t : ℚ) (h10 : (10 : ℚ) ≥ t) :
    partitionM "class" "a1" t ER = some (0, 2, ⟨0, 0, 0, 0⟩, ⟨0, 2, 0, 0⟩) := by
  simp [partitionM, ER, b2, b3, Example.get?, List.find?,
    classCat, catOfValue, Counts.bump, h10]

theorem part_ER_a2 (t : ℚ) (h10 : (10 : ℚ) ≥ t) :
    partitionM "class" "a2" t ER = some (0, 1, ⟨0, 0, 0, 0⟩, ⟨0, 1, 0, 0⟩) := by
  simp [partitionM, ER, b2, b3, Example.get?, List.find?,
    classCat, catOfValue, Counts.bump, h10]

theorem part_ER_a3 (t : ℚ) (h10 : (10 : ℚ) ≥ t) :
    partitionM "class" "a3" t ER = some (0, 1, ⟨0, 0, 0, 0⟩, ⟨0, 1, 0, 0⟩) := by
  simp [partitionM, ER, b2, b3, Example.get?, List.find?,
    classCat, catOfValue, Counts.bump, h10]

theorem stepL_a1 :
    attrStepM "name" "class" 1 entPL EL r1 "a1" initScan = some initScan := by
  rw [attrStepM_run considered_E6_a1 btL_a1]
  apply innerLoopM_const
  intro t ht
  rw [innerTrace_closed] at ht
  simp only [List.mem_map, List.mem_range] at ht
  obtain ⟨i, _, rfl⟩ := ht
  refine stepM_skip (part_EL_a1 _ ?_) (Or.inl rfl)
  rw [show ((0 : ℚ) - (0 - 0) / 25 + (0 - 0) / 25 * ((i : ℚ) + 1)) = 0 by ring]

theorem stepL_a2 :
    attrStepM "name" "class" 1 entPL EL r1 "a2" initScan =
      some ⟨entPL, 0, "town", 0, 0⟩ := by
  rw [attrStepM_run considered_E6_a2 btL_a2]
  rw [show ((10 : ℚ) - 0) / 25 = 2/5 by norm_num,
      show (0 : ℚ) - 2/5 = -(2/5) by norm_num]
  rw [innerLoopM_step (stepM_skip (part_EL_a2_low _ (by norm_num)) (Or.inl rfl))]
  rw [innerLoopM_step (stepM_contaminate (part_EL_a2_mid _ (by norm_num) (by norm_num))
    (by norm_num) (by norm_num) (by rw [gainOf_pure]; exact entropyL_pos)
    (by intro hc; norm_num at hc))]
  rw [gainOf_pure, show (-(2/5) + 2/5 + 2/5 : ℚ) = 2/5 by norm_num]
  simp only [initScan]
  apply innerLoopM_const
  intro t ht
  rw [innerTrace_closed] at ht
  simp only [List.mem_map, List.mem_range] at ht
  obtain ⟨i, hi, rfl⟩ := ht
  have hi' : (i : ℚ) ≤ 22 := by
    have : i ≤ 22 := by omega
    exact_mod_cast this
  apply stepM_stale (part_EL_a2_mid _ (by push_neg; positivity) (by linarith))
    (by norm_num) (by norm_num)
  rw [gainOf_pure]

theorem stepL_a3 :
    attrStepM "name" "class" 1 entPL EL r1 "a3" ⟨entPL, 0, "town", 0, 0⟩ =
      some ⟨entPL, 0, "town", 0, 0⟩ := by
  rw [attrStepM_run considered_E6_a3 btL_a3]
  rw [show ((10 : ℚ) - 0) / 25 = 2/5 by norm_num,
      show (0 : ℚ) - 2/5 = -(2/5) by norm_num]
  rw [innerLoopM_step (stepM_skip (part_EL_a3_low _ (by norm_num)) (Or.inl rfl))]
  apply innerLoopM_const
  intro t ht
  rw [innerTrace_closed] at ht
  simp only [List.mem_map, List.mem_range] at ht
  obtain ⟨i, hi, rfl⟩ := ht
  have hi' : (i : ℚ) ≤ 23 := by
    have : i ≤ 23 := by omega
    exact_mod_cast this
  apply stepM_stale (part_EL_a3_mid _ (by push_neg; positivity) (by linarith))
    (by norm_num) (by norm_num)
  rw [gainOf_pure]

theorem scan_EL :
    attrScanM "name" "class" 1 entPL EL r1 ["name", "a1", "a2", "a3", "class"]
      initScan = some ⟨entPL, 0, "town", 0, 0⟩ := by
  rw [attrScanM_cons (attrStepM_skip considered_E6_name)]
  rw [attrScanM_cons stepL_a1]
  rw [attrScanM_cons stepL_a2]
  rw [attrScanM_cons stepL_a3]
  rw [attrScanM_cons (attrStepM_skip considered_E6_class)]
  exact attrScanM_nil

theorem learnTree_EL : learnTree "name" "class" 1 EL = some (.leaf .red 3 4) :=
  learnTree_leaf_eq tally_EL scan_EL (Or.inl rfl)

theorem considered_ER_name : attrConsidered b2 "name" "name" = false := by decide
theorem considered_ER_a1 : attrConsidered b2 "name" "a1" = true := by decide
theorem considered_ER_a2 : attrConsidered b2 "name" "a2" = true := by decide
theorem considered_ER_a3 : attrConsidered b2 "name" "a3" = true := by decide
theorem considered_ER_class : attrConsidered b2 "name" "class" = false := by decide

theorem stepR_a1 {entP : ℝ} :
    attrStepM "name" "class" 1 entP ER b2 "a1" initScan = some initScan := by
  rw [attrStepM_run considered_ER_a1 btR_a1]
  apply innerLoopM_const
  intro t ht
  rw [innerTrace_closed] at ht
  simp only [List.mem_map, List.mem_range] at ht
  obtain ⟨i, _, rfl⟩ := ht
  refine stepM_skip (part_ER_a1 _ ?_) (Or.inl rfl)
  rw [show ((10 : ℚ) - (10 - 10) / 25 + (10 - 10) / 25 * ((i : ℚ) + 1)) = 10 by ring]

theorem stepR_a2 {entP : ℝ} :
    attrStepM "name" "class" 1 entP ER b2 "a2" initScan = some initScan := by
  rw [attrStepM_run considered_ER_a2 btR_a2]
  apply innerLoopM_const
  intro t ht
  rw [innerTrace_closed] at ht
  simp only [List.mem_map, List.mem_range] at ht
  obtain ⟨i, _, rfl⟩ := ht
  refine stepM_skip (part_ER_a2 _ ?_) (Or.inl rfl)
  rw [show ((10 : ℚ) - (10 - 10) / 25 + (10 - 10) / 25 * ((i : ℚ) + 1)) = 10 by ring]

theorem stepR_a3 {entP : ℝ} :
    attrStepM "name" "class" 1 entP ER b2 "a3" initScan = some initScan := by
  rw [attrStepM_run considered_ER_a3 btR_a3]
  apply innerLoopM_const
  intro t ht
  rw [innerTrace_closed] at ht
  simp only [List.mem_map, List.mem_range] at ht
  obtain ⟨i, _, rfl⟩ := ht
  refine stepM_skip (part_ER_a3 _ ?_) (Or.inl rfl)
  rw [show ((10 : ℚ) - (10 - 10) / 25 + (10 - 10) / 25 * ((i : ℚ) + 1)) = 10 by ring]

theorem scan_ER {entP : ℝ} :
    attrScanM "name" "class" 1 entP ER b2 ["name", "a1", "a2", "a3", "class"]
      initScan = some initScan := by
  rw [attrScanM_cons (attrStepM_skip considered_ER_name)]
  rw [attrScanM_cons stepR_a1]
  rw [attrScanM_cons stepR_a2]
  rw [attrScanM_cons stepR_a3]
  rw [attrScanM_cons (attrStepM_skip considered_ER_class)]
  exact attrScanM_nil

theorem learnTree_ER : learnTree "name" "class" 1 ER = some (.leaf .lightBlue 2 2) :=
  learnTree_leaf_eq tally_ER scan_ER (Or.inl rfl)

/-- The six-example run: the returned decision node splits on `a1` with
gain `gC`, although the scanned candidate `(a3, 2/5)` is valid and has the
strictly larger gain `entP6`. -/
theorem learnTree_E6 :
    learnTree "name" "class" 1 E6 =
      some (.node "a1" (2/5) (.leaf .red 3 4) (.leaf .lightBlue 2 2)
        (.leaf .red 3 6)) := by
  apply learnTree_node_eq tally_E6 scan_E6
  · intro h
    rcases h with h | h
    · exact absurd h (by decide)
    · norm_num at h
  · exact split_E6
  · exact learnTree_EL
  · exact learnTree_ER

/-! ### A two-example set whose first example misses the numeric attribute -/

def ec1 : Example := [("name", .str "p"), ("x", .nil), ("class", .str "red")]
def ec2 : Example := [("name", .str "q"), ("x", .num 1), ("class", .str "light blue")]
def EC3 : List Example := [ec1, ec2]

/-- The `DecisionTree` constructor: configuration plus the eagerly built
root. -/
structure DecisionTree where
  idName : String
  className : String
  minLeafCount : ℤ
  root : TreeNode

/-- `DecisionTree(examples, id_name, class_name, min_leaf_count)`; `none`
models a constructor that raises. -/
noncomputable def mkDecisionTree (examples : List Example) (idn cls : String)
    (mlc : ℤ) : Option DecisionTree :=
  (learnTree idn cls mlc examples).map (fun r => ⟨idn, cls, mlc, r⟩)

/-- `DecisionTree.classify`: delegate to the root. -/
noncomputable def DecisionTree.classifyEx (t : DecisionTree) (e : Example) :
    Option (Cat × ℝ) :=
  classify t.root e

/-! ## The claims -/

/-- C1, counterexample.  On the six-example set `E6` with
`min_leaf_count = 1`, `learn_tree` returns a `DecisionNode` splitting on
`(a1, 2/5)`, although the scanned candidate `(a3, 2/5)` has both partition
sizes `2 > 1` and strictly larger information gain: the recorded split does
*not* have maximal gain among the size-valid candidates, because the
size-invalid pure candidate on `a2` raised the running maximum `IG`
without being recorded.  (`attrConsidered`/`innerTrace` membership show the
`a3` candidate really is scanned, `partitionM` gives its partition
sizes.) -/
theorem C1_counterexample :
    learnTree "name" "class" 1 E6 =
      some (.node "a1" (2/5) (.leaf .red 3 4) (.leaf .lightBlue 2 2)
        (.leaf .red 3 6)) ∧
    attrConsidered r1 "name" "a3" = true ∧
    (2/5 : ℚ) ∈ innerTrace ((10 - 0) / 25) 25 (0 - (10 - 0) / 25) ∧
    partitionM "class" "a3" (2/5) E6 = some (2, 2, ⟨2, 0, 0, 0⟩, ⟨0, 2, 0, 0⟩) ∧
    (1 : ℤ) < ((2 : ℕ) : ℤ) ∧
    gainOf entP6 4 2 ⟨3, 1, 0, 0⟩ ⟨0, 2, 0, 0⟩ <
      gainOf entP6 2 2 ⟨2, 0, 0, 0⟩ ⟨0, 2, 0, 0⟩ := by
  refine ⟨learnTree_E6, considered_E6_a3, ?_, part_a3_mid (2/5) (by norm_num)
    (by norm_num), by norm_num, ?_⟩
  · rw [innerTrace_closed]
    refine List.mem_map.mpr ⟨1, by simp, by norm_num⟩
  · rw [gainOf_pure]
    exact gC_lt

/-- C1, amended.  The actual tracking rule of lines 205-218: for every
candidate threshold whose partition has both sides non-empty, the running
maximum becomes `max IG gain` *whether or not the min-leaf-count test
passes*; the candidate is recorded exactly when its gain strictly exceeds
the previous running maximum and both partition sizes strictly exceed
`min_leaf_count`.  A candidate whose gain merely ties the running maximum
never replaces the incumbent, and a size-invalid candidate contaminates
`IG` without being recorded. -/
theorem C1_best_split_tracking (cls : String) (mlc : ℤ) (entP : ℝ)
    (ex : List Example) (key : String) (t : ℚ) (st : ScanSt)
    (pl pr : ℕ) (cl cr : Counts)
    (hp : partitionM cls key t ex = some (pl, pr, cl, cr))
    (hpr : pr ≠ 0) (hpl : pl ≠ 0) :
    (st.IG < gainOf entP pl pr cl cr → mlc < (pl : ℤ) → mlc < (pr : ℤ) →
      stepM cls mlc entP ex key t st =
        some ⟨max st.IG (gainOf entP pl pr cl cr), t, key, pl, pr⟩) ∧
    (gainOf entP pl pr cl cr ≤ st.IG →
      stepM cls mlc entP ex key t st = some st) ∧
    (¬(mlc < (pl : ℤ) ∧ mlc < (pr : ℤ)) →
      stepM cls mlc entP ex key t st =
        some ⟨max st.IG (gainOf entP pl pr cl cr), st.thres, st.attr,
          st.minL, st.minR⟩) := by
  refine ⟨?_, ?_, ?_⟩
  · intro hg hl hr
    rw [stepM_record hp hpl hpr hg hl hr, max_eq_right (le_of_lt hg)]
  · intro hg
    exact stepM_stale hp hpl hpr hg
  · intro hsz
    rcases le_or_lt (gainOf entP pl pr cl cr) st.IG with hg | hg
    · rw [stepM_stale hp hpl hpr hg, max_eq_left hg, ScanSt.eta]
    · rw [stepM_contaminate hp hpl hpr hg hsz, max_eq_right (le_of_lt hg)]

/-- C1, witness for the amended rule: at the contaminating `a2` candidate
of the six-example run, the state keeps the recorded `(a1, 2/5)` split but
its `IG` is raised to `max gC entP6 = entP6`. -/
theorem C1_best_split_tracking_witness :
    stepM "class" 1 entP6 E6 "a2" (2/5) ⟨gC, 2/5, "a1", 4, 2⟩ =
      some ⟨max gC entP6, 2/5, "a1", 4, 2⟩ := by
  have h := (C1_best_split_tracking "class" 1 entP6 E6 "a2" (2/5)
    ⟨gC, 2/5, "a1", 4, 2⟩ 1 2 ⟨1, 0, 0, 0⟩ ⟨0, 2, 0, 0⟩
    (part_a2_mid (2/5) (by norm_num) (by norm_num))
    (by norm_num) (by norm_num)).2.2 (by intro hc; norm_num at hc)
  rw [h, gainOf_pure]

/-- C2, counterexample.  On the two-example set with attribute values `0`
and `1`, `bottom = 0`, `top = 1` and `seg = 1/25`; the loop sets
`thres = bottom - seg` and adds `seg` *before* each use, so the evaluated
thresholds are `bottom + seg*i` for `i = 0..24` — not `min + seg*i` for
`i = 1..25` as claimed (the first candidate is `min` itself, and
`min + seg*25 = max` is never evaluated). -/
theorem C2_counterexample :
    bottomTopM "x" (EA "x") = some (0, 1) ∧
    innerTrace ((1 - 0) / 25) 25 (0 - (1 - 0) / 25) =
      (List.range 25).map (fun i : ℕ => 0 + (1 - 0) / 25 * (i : ℚ)) ∧
    innerTrace ((1 - 0) / 25) 25 (0 - (1 - 0) / 25) ≠
      (List.range 25).map (fun i : ℕ => 0 + (1 - 0) / 25 * ((i : ℚ) + 1)) := by
  refine ⟨bottomTop_EA (by decide), ?_, ?_⟩
  · rw [innerTrace_closed]
    apply List.map_congr_left
    intro i _
    ring
  · intro h
    rw [innerTrace_closed] at h
    have h0 := congrArg (fun l => l[0]?) h
    simp [List.getElem?_map, List.getElem?_range] at h0

/-- C2, amended.  The threshold loop evaluates exactly the thresholds of
`innerTrace`, and starting from `thres = bottom - seg` those are
`bottom + seg*i` for `i = 0..24`. -/
theorem C2_thresholds (cls : String) (mlc : ℤ) (entP : ℝ) (ex : List Example)
    (key : String) (bottom top : ℚ) :
    (∀ (n : ℕ) (t0 : ℚ) (st : ScanSt),
      innerLoopM cls mlc entP ex key ((top - bottom) / 25) n t0 st =
        (innerTrace ((top - bottom) / 25) n t0).foldlM
          (fun s t => stepM cls mlc entP ex key t s) st) ∧
    innerTrace ((top - bottom) / 25) 25 (bottom - (top - bottom) / 25) =
      (List.range 25).map
        (fun i : ℕ => bottom + (top - bottom) / 25 * (i : ℚ)) := by
  constructor
  · intro n t0 st
    exact innerLoopM_eq_fold n t0 st
  · rw [innerTrace_closed]
    apply List.map_congr_left
    intro i _
    ring

/-- C3, counterexample.  In `EC3` the attribute `"x"` is not the id
attribute, its only defined value (`1.0`, on the second example) is
numeric, yet the line-178 filter — which inspects only `examples[0]` —
rejects it because the *first* example's `"x"` is missing, and the scan
leaves the state untouched.  By the claim's criteria `"x"` should have
been scanned. -/
theorem C3_counterexample :
    attrConsidered ec1 "name" "x" = false ∧
    ("x" : String) ≠ "name" ∧
    ec1.get? "x" = some .nil ∧
    ec2.get? "x" = some (.num 1) ∧
    attrStepM "name" "class" 0 0 EC3 ec1 "x" initScan = some initScan := by
  refine ⟨by decide, by decide, by decide, by decide, ?_⟩
  exact attrStepM_skip (by decide)

/-- C3, amended.  An attribute is excluded from split consideration
exactly when it equals the id attribute or the *first* example's value for
it is not a float (the other examples' values are never consulted, and the
`type(...) is None` disjunct is always false); an excluded attribute
leaves the scan state unchanged. -/
theorem C3_attribute_filter (e0 : Example) (idn key cls : String) (mlc : ℤ)
    (entP : ℝ) (ex : List Example) (st : ScanSt) :
    (attrConsidered e0 idn key = true ↔
      key ≠ idn ∧ ∃ q, e0.get? key = some (.num q)) ∧
    (attrConsidered e0 idn key = false →
      attrStepM idn cls mlc entP ex e0 key st = some st) := by
  constructor
  · exact attrConsidered_iff e0 idn key
  · intro h
    exact attrStepM_skip h

/-- C3, witness: the amended filter rule applied to the concrete `EC3`
run. -/
theorem C3_attribute_filter_witness :
    attrStepM "name" "class" 0 0 EC3 ec1 "name" initScan = some initScan :=
  (C3_attribute_filter ec1 "name" "name" "class" 0 0 EC3 initScan).2 (by decide)

/-- C4.  Termination of `learn_tree`: whenever the scan records a split
(the sentinel `"town"` is replaced), both lists of the final splitting
loop are strictly shorter than the example list — the very inequalities on
which `learnTree`'s well-founded recursion is built, so the recursion
always terminates. -/
theorem C4_termination (idn cls : String) (mlc : ℤ) (examples : List Example)
    (e0 : Example) (keys : List String) (st : ScanSt) (L R : List Example)
    (entP : ℝ)
    (hne : examples ≠ [])
    (hlabels : ∀ e ∈ examples, ∃ c, classCat cls e = some c)
    (hmlc : 0 ≤ mlc)
    (hscan : attrScanM idn cls mlc entP examples e0 keys initScan = some st)
    (hattr : st.attr ≠ "town")
    (hsp : splitListsM st.attr st.thres examples = some (L, R)) :
    L.length < examples.length ∧ R.length < examples.length :=
  scan_split_lt hscan hattr hsp

/-- C4, witness: on the concrete two-example run the recorded split
produces two one-element lists, each shorter than the two-element input. -/
theorem C4_termination_witness :
    [exA1 "x"].length < (EA "x").length ∧
      [exA2 "x"].length < (EA "x").length := by
  refine C4_termination "name" "class" 0 (EA "x") (exA1 "x") ["name", "x", "class"]
    ⟨entropy ⟨1, 1, 0, 0⟩ ((2 : ℕ) : ℝ), 1/25, "x", 1, 1⟩ [exA1 "x"] [exA2 "x"]
    (entropy ⟨1, 1, 0, 0⟩ ((2 : ℕ) : ℝ)) (by decide) ?_ (by norm_num)
    (scan_EA (by decide) (by decide) entropy11_pos) (by decide)
    (splitLists_EA (by decide))
  intro e he
  simp only [EA, List.mem_cons, List.not_mem_nil, or_false] at he
  rcases he with rfl | rfl
  · exact ⟨.red, by decide⟩
  · exact ⟨.lightBlue, by decide⟩

/-- C5.  Every decision node's missing-value child is the leaf of the
undivided example set the node was learned from, and classifying any
example whose value for the root's test attribute is missing returns
exactly that leaf's stored label and probability. -/
theorem C5_missing_branch (idn cls : String) (mlc : ℤ) (ex : List Example)
    (tr : TreeNode) (h : learnTree idn cls mlc ex = some tr) :
    MissOK idn cls mlc ex tr ∧
    ∀ (a : String) (t : ℚ) (lt ge miss : TreeNode),
      tr = .node a t lt ge miss →
      ∃ tl, tallyM cls ex = some tl ∧
        miss = .leaf tl.majority tl.pcc tl.total ∧
        ∀ e : Example, e.get? a = some .nil →
          classify tr e = some (tl.majority, leafProb tl.pcc tl.total) := by
  refine ⟨learnTree_missOK h, ?_⟩
  intro a t lt ge miss htr
  subst htr
  have hm := learnTree_missOK h
  obtain ⟨⟨tl, htl, hmiss⟩, -⟩ := hm
  refine ⟨tl, htl, hmiss, ?_⟩
  intro e he
  rw [classify_miss he, hmiss, classify_leaf]

/-- C5, witness: on the learned two-example tree, an example missing `"x"`
classifies to the parent's majority leaf `(red, 1/2)` whatever its other
attributes are. -/
theorem C5_missing_branch_witness :
    classify (.node "x" (1/25) (.leaf .red 1 1) (.leaf .lightBlue 1 1)
        (.leaf .red 1 2)) [("name", .str "z"), ("x", Value.nil)] =
      some (.red, leafProb 1 2) := by
  have h := C5_missing_branch "name" "class" 0 (EA "x") _
    (learnTree_EA (by decide) (by decide) (by decide))
  obtain ⟨-, h2⟩ := h
  obtain ⟨tl, htl, hm, hcl⟩ := h2 "x" (1/25) _ _ _ rfl
  have hres := hcl [("name", .str "z"), ("x", Value.nil)] (by decide)
  rw [tally_EA (by decide)] at htl
  injection htl with htl
  subst htl
  exact hres

/-- C6.  Every leaf of a tree learned from a non-empty example set whose
class labels are all recognized satisfies `0 < pred_class_count ≤
total_count`, and its stored probability lies in `(0, 1]`. -/
theorem C6_leaf_invariant (idn cls : String) (mlc : ℤ) (ex : List Example)
    (tr : TreeNode) (hne : ex ≠ [])
    (hlabels : ∀ e ∈ ex, ∃ c, classCat cls e = some c)
    (h : learnTree idn cls mlc ex = some tr) : LeafOK tr :=
  learnTree_leafOK h

/-- C6, witness: the leaf bounds on the concrete learned tree. -/
theorem C6_leaf_invariant_witness :
    LeafOK (.node "x" (1/25) (.leaf .red 1 1) (.leaf .lightBlue 1 1)
      (.leaf .red 1 2)) := by
  apply C6_leaf_invariant "name" "class" 0 (EA "x") _ (by decide) ?_
    (learnTree_EA (by decide) (by decide) (by decide))
  intro e he
  simp only [EA, List.mem_cons, List.not_mem_nil, or_false] at he
  rcases he with rfl | rfl
  · exact ⟨.red, by decide⟩
  · exact ⟨.lightBlue, by decide⟩

/-- C7, counterexample.  A defined but *non-numeric* test value does not go
to `child_ge`: Python 3 raises `TypeError` on `"blah" < threshold`, so
classification returns no answer at all, while `child_ge` would have
answered; likewise the final splitting loop drops a string-valued example
from both partitions. -/
theorem C7_counterexample :
    classify (.node "x" 5 (.leaf .red 1 1) (.leaf .lightBlue 1 1)
        (.leaf .mediumBlue 1 1)) [("x", Value.str "blah")] = none ∧
    classify (.leaf .lightBlue 1 1) [("x", Value.str "blah")] =
      some (.lightBlue, leafProb 1 1) ∧
    splitListsM "x" 5 [[("x", Value.str "blah")]] = some ([], []) := by
  refine ⟨?_, classify_leaf _ _ _ _, by decide⟩
  exact classify_str (show Example.get? [("x", Value.str "blah")] "x" =
    some (.str "blah") by decide)

/-- C7, amended.  Classification routes a missing value to `child_miss`, a
float `< threshold` to `child_lt` and a float `>= threshold` to
`child_ge` (a non-float defined value raises); and the two split lists of
learning are exactly the float-valued examples below, respectively
at-or-above, the threshold — every float-valued example lands in exactly
one. -/
theorem C7_routing (a : String) (t : ℚ) (lt ge miss : TreeNode) (e : Example)
    (q : ℚ) (key : String) (ex L R : List Example) :
    (e.get? a = some .nil → classify (.node a t lt ge miss) e = classify miss e) ∧
    (e.get? a = some (.num q) → q < t →
      classify (.node a t lt ge miss) e = classify lt e) ∧
    (e.get? a = some (.num q) → ¬(q < t) →
      classify (.node a t lt ge miss) e = classify ge e) ∧
    (splitListsM key t ex = some (L, R) →
      L = ex.filter (numLT key t) ∧ R = ex.filter (numGE key t)) :=
  ⟨classify_miss, classify_lt, classify_ge, splitListsM_eq_filters⟩

/-- C7, witness: the routing rules applied on concrete inputs — a float
below the threshold goes left, and the concrete split lists are the two
filters. -/
theorem C7_routing_witness :
    classify (.node "x" 5 (.leaf .red 1 1) (.leaf .lightBlue 1 1)
        (.leaf .mediumBlue 1 1)) [("x", Value.num 3)] =
      some (.red, leafProb 1 1) ∧
    [exA1 "x"] = (EA "x").filter (numLT "x" (1/25)) := by
  constructor
  · have h := (C7_routing "x" 5 (.leaf .red 1 1) (.leaf .lightBlue 1 1)
      (.leaf .mediumBlue 1 1) [("x", Value.num 3)] 3 "x" [] [] []).2.1
      (by decide) (by norm_num)
    rw [h, classify_leaf]
  · exact ((C7_routing "x" (1/25) (.leaf .red 1 1) (.leaf .lightBlue 1 1)
      (.leaf .mediumBlue 1 1) [] 3 "x" (EA "x") [exA1 "x"] [exA2 "x"]).2.2.2
      (@splitLists_EA "x" (by decide))).1

/-- C8.  The entropy function is safe and bounded: with counts summing to
`total` (possibly 0), the `1e-15` smoothing keeps the divisor and every
log argument strictly positive, and the value lies in `[0, log2 4]`. -/
theorem C8_entropy_safe (c : Counts) (total : ℕ)
    (h : total = c.red + c.lightBlue + c.mediumBlue + c.wickedBlue) :
    0 < (total : ℝ) + eps ∧
    0 < ((c.red : ℝ) + eps) / ((total : ℝ) + eps) ∧
    0 < ((c.lightBlue : ℝ) + eps) / ((total : ℝ) + eps) ∧
    0 < ((c.mediumBlue : ℝ) + eps) / ((total : ℝ) + eps) ∧
    0 < ((c.wickedBlue : ℝ) + eps) / ((total : ℝ) + eps) ∧
    0 ≤ entropy c (total : ℝ) ∧ entropy c (total : ℝ) ≤ Real.logb 2 4 := by
  have ht : (0 : ℝ) < (total : ℝ) + eps :=
    add_pos_of_nonneg_of_pos total.cast_nonneg eps_pos
  have harg : ∀ n : ℕ, 0 < ((n : ℝ) + eps) / ((total : ℝ) + eps) := fun n =>
    div_pos (add_pos_of_nonneg_of_pos n.cast_nonneg eps_pos) ht
  have hsum : total = c.sum := by rw [h]; rfl
  have hlogb4 : Real.logb 2 4 = 2 := by
    rw [Real.logb, show (4 : ℝ) = 2 ^ 2 by norm_num, Real.log_pow]
    have h2 := Real.log_two_gt_d9
    field_simp
  refine ⟨ht, harg _, harg _, harg _, harg _, entropy_nonneg c total hsum, ?_⟩
  rw [hlogb4]
  exact entropy_le_two c total hsum

/-- C8, witness: the bounds at the concrete distribution `(1,1,0,0)`. -/
theorem C8_entropy_safe_witness :
    0 ≤ entropy ⟨1, 1, 0, 0⟩ ((2 : ℕ) : ℝ) ∧
      entropy ⟨1, 1, 0, 0⟩ ((2 : ℕ) : ℝ) ≤ Real.logb 2 4 := by
  have h := C8_entropy_safe ⟨1, 1, 0, 0⟩ 2 (by norm_num)
  exact ⟨h.2.2.2.2.2.1, h.2.2.2.2.2.2⟩

theorem catOfValue_str_none (s : String) (h1 : s ≠ "red")
    (h2 : s ≠ "light blue") (h3 : s ≠ "medium blue") (h4 : s ≠ "wicked blue") :
    catOfValue (.str s) = none := by
  unfold catOfValue
  split
  · rename_i heq; injection heq with heq; exact absurd heq h1
  · rename_i heq; injection heq with heq; exact absurd heq h2
  · rename_i heq; injection heq with heq; exact absurd heq h3
  · rename_i heq; injection heq with heq; exact absurd heq h4
  · rfl

/-- C9.  Constructing a `DecisionTree` raises rather than returning a tree
on an empty training list (`IndexError` at `examples[0]`) and whenever
some example's class value is a string outside the four recognized labels
(`KeyError` in the class-count loop). -/
theorem C9_constructor_fails (idn cls : String) (mlc : ℤ) :
    mkDecisionTree [] idn cls mlc = none ∧
    ∀ (e0 : Example) (es : List Example) (e : Example) (s : String),
      e ∈ e0 :: es → e.get? cls = some (.str s) →
      s ≠ "red" → s ≠ "light blue" → s ≠ "medium blue" → s ≠ "wicked blue" →
      mkDecisionTree (e0 :: es) idn cls mlc = none := by
  constructor
  · simp [mkDecisionTree, learnTree_nil]
  · intro e0 es e s he hv h1 h2 h3 h4
    have hbad : classCat cls e = none := by
      unfold classCat
      rw [hv]
      exact catOfValue_str_none s h1 h2 h3 h4
    simp [mkDecisionTree, learnTree_bad_label ⟨e, he, hbad⟩]

/-- C9, witness: the constructor raises on a concrete one-example list
whose class label is `"purple"`. -/
theorem C9_constructor_fails_witness :
    mkDecisionTree [[("class", Value.str "purple")]] "name" "class" 0 = none :=
  (C9_constructor_fails "name" "class" 0).2 [("class", Value.str "purple")] []
    [("class", Value.str "purple")] "purple" (by simp) (by decide)
    (by decide) (by decide) (by decide) (by decide)

/-- C10.  `"town"` is the scan's "no split found" sentinel: no learned
tree contains a decision node testing an attribute named `"town"`; and on
the concrete set whose only splittable attribute is named `"town"` (the id
attribute being `"name"`), `learn_tree` returns a `LeafNode` although the
scanned candidate `("town", 1/25)` has both partition sizes above
`min_leaf_count = 0` and strictly positive gain. -/
theorem C10_town_sentinel :
    (∀ (idn cls : String) (mlc : ℤ) (ex : List Example) (tr : TreeNode),
      learnTree idn cls mlc ex = some tr → NoTown tr) ∧
    learnTree "name" "class" 0 (EA "town") = some (.leaf .red 1 2) ∧
    attrConsidered (exA1 "town") "name" "town" = true ∧
    partitionM "class" "town" (1/25) (EA "town") =
      some (1, 1, ⟨1, 0, 0, 0⟩, ⟨0, 1, 0, 0⟩) ∧
    (0 : ℤ) < ((1 : ℕ) : ℤ) ∧
    0 < gainOf (entropy ⟨1, 1, 0, 0⟩ ((2 : ℕ) : ℝ)) 1 1 ⟨1, 0, 0, 0⟩
      ⟨0, 1, 0, 0⟩ := by
  refine ⟨fun idn cls mlc ex tr h => learnTree_noTown h, learnTree_EA_town,
    by decide, @partition_EA_mid "town" (by decide) (by decide) (1/25) (by norm_num)
      (by norm_num), by norm_num, ?_⟩
  rw [gainOf_pure]
  exact entropy11_pos

/-- C10, witness: the universal part applied to the concrete `EA "x"` run:
its learned tree contains no `"town"` test. -/
theorem C10_town_sentinel_witness :
    NoTown (.node "x" (1/25) (.leaf .red 1 1) (.leaf .lightBlue 1 1)
      (.leaf .red 1 2)) :=
  C10_town_sentinel.1 "name" "class" 0 (EA "x") _
    (learnTree_EA (by decide) (by decide) (by decide))

end DecisionTreePy
